import Mathlib

/-!
Verification of the dependency-driven workflow orchestration engine and its
companion components (task coordinator, verification memory, shared knowledge
repository) of the deep-research-agent repository.

The Python sources are shallowly embedded as executable Lean definitions:

* `src/coordination/workflow_engine.py` — `WorkflowStep`, `WorkflowEngine`,
  `create_workflow`, `execute_workflow`, `_execute_steps`, `_execute_step`.
  The asynchronous round (`asyncio.gather`) is sequentialized: all launched
  coroutines of one round read the same pre-round `results` map and mutate
  disjoint step objects, so the sequential model is observationally
  equivalent.  Opaque Python payloads (`Dict[str, Any]`) are modelled by a
  type parameter `V`; Python truthiness of a payload is modelled by an
  explicit predicate `truthy : V → Bool`.  Timestamp bookkeeping
  (`created_at`, `started_at`, `completed_at`) is omitted, as are the debug
  `print` statements.  The model additionally records a `trace` of worker
  invocations (step id and the payload actually handed to the worker); this
  instrumentation mirrors the observable calls `agent.process_task(task_data)`
  and is otherwise inert.
* `src/coordination/task_coordinator.py` — the backlog drain loop
  `process_task_queue`.  The body of the `try` block (lines 163-179: workflow
  construction plus engine execution for the three task kinds, which either
  returns a result or raises) is abstracted as a parameter
  `perform : E → QueuedTask V → E × Except String V` threading an opaque
  environment `E`; the queue mechanics themselves are translated literally.
* `src/memory/verification_memory.py` — `get_verification_summary`, with
  Python float division modelled over `ℚ` and the raising `/` modelled as
  `pythonDiv` (errors on a zero denominator exactly as Python raises
  `ZeroDivisionError`).
* `src/memory/shared_knowledge.py` — `export_knowledge` / `import_knowledge`.
  `json.dumps` / `json.loads` are modelled as an inverse pair (the snapshot is
  kept structured); the tier sections of the exported JSON are omitted from
  the snapshot because `import_knowledge` never reads them back
  (source line 142: memory components would need individual import methods).

Python `dict`s are modelled as insertion-ordered association lists with
first-occurrence update (`dictUpdate`), Python `set`s of strings as duplicate
free lists (`setInsert`).
-/

namespace DeepResearch

/-! ### Python dict / set helpers -/

/-- Lookup in an insertion-ordered association list (Python `d[k]` / `k in d`). -/
def dictLookup {α : Type} (l : List (String × α)) (k : String) : Option α :=
  match l with
  | [] => none
  | p :: rest => if p.1 = k then some p.2 else dictLookup rest k

/-- Assignment `d[k] = v` on an insertion-ordered association list: replaces the
first binding of `k` in place, appends a fresh binding otherwise. -/
def dictUpdate {α : Type} (l : List (String × α)) (k : String) (v : α) :
    List (String × α) :=
  match l with
  | [] => [(k, v)]
  | p :: rest => if p.1 = k then (k, v) :: rest else p :: dictUpdate rest k v

/-- Python `dict.update`: fold the right dict into the left one. -/
def dictUpdateAll {α : Type} (l : List (String × α)) (m : List (String × α)) :
    List (String × α) :=
  match m with
  | [] => l
  | p :: rest => dictUpdateAll (dictUpdate l p.1 p.2) rest

/-- Python `set.add` on a duplicate-free list of strings. -/
def setInsert (l : List String) (k : String) : List String :=
  if k ∈ l then l else l ++ [k]

/-- Python `del d[k]`. -/
def dictDelete {α : Type} (l : List (String × α)) (k : String) :
    List (String × α) :=
  l.filter (fun p => p.1 ≠ k)

/-! ### Workflow engine data model (`workflow_engine.py`) -/

/-- `TaskStatus` enumeration (`workflow_engine.py` lines 9-15). -/
inductive TaskStatus : Type
  | pending
  | in_progress
  | completed
  | failed
  | cancelled
deriving DecidableEq

/-- The task dict carried by a step.  The engine only ever inspects and
rewrites the `data` entry (`task_data.get("data")`, `task_data["data"] = ...`);
all remaining entries are opaque and collapsed into `rest`. -/
structure TaskPayload (V : Type) where
  data : Option V
  rest : V
deriving DecidableEq

/-- `WorkflowStep` (`workflow_engine.py` lines 18-32), timestamps omitted. -/
structure WorkflowStep (V : Type) where
  step_id : String
  agent_name : String
  task : TaskPayload V
  dependencies : List String
  status : TaskStatus
  result : Option V
  error : Option String
deriving DecidableEq

/-- A worker (`agent.process_task`): returns a result payload or raises. -/
def Worker (V : Type) : Type := TaskPayload V → Except String V

/-- The capability table `agents : Dict[str, Any]` supplied to `execute_workflow`. -/
def AgentTable (V : Type) : Type := String → Option (Worker V)

/-- Mutable state of one `_execute_steps` run: the step objects, the `results`
dict, the `completed_steps` set, plus the instrumentation trace of worker
invocations. -/
structure ExecState (V : Type) where
  steps : List (WorkflowStep V)
  results : List (String × V)
  completed : List String
  trace : List (String × TaskPayload V)
deriving DecidableEq

/-- Step-config dict accepted by `create_workflow` (lines 47-53):
`step_config.get("dependencies", [])`. -/
structure StepSpec (V : Type) where
  step_id : String
  agent_name : String
  task : TaskPayload V
  dependencies : Option (List String)
deriving DecidableEq

/-- `WorkflowStep.__init__`: `dependencies or []`, status `PENDING`, no result,
no error. -/
def mkStep {V : Type} (c : StepSpec V) : WorkflowStep V :=
  ⟨c.step_id, c.agent_name, c.task, c.dependencies.getD [], .pending, none, none⟩

/-- Entry of `active_workflows` (status plus optional error; timestamps and the
step-object alias are omitted). -/
structure ActiveRecord where
  status : String
  error : Option String
deriving DecidableEq

/-- Entry of `workflow_history` (lines 80-86 and 100-105), timestamps omitted. -/
structure HistoryRecord (V : Type) where
  workflow_id : String
  status : String
  results : Option (List (String × V))
  error : Option String
deriving DecidableEq

/-- The `WorkflowEngine` object state (lines 38-41). -/
structure WorkflowEngine (V : Type) where
  workflows : List (String × List (WorkflowStep V))
  active_workflows : List (String × ActiveRecord)
  workflow_history : List (HistoryRecord V)
deriving DecidableEq

/-- `WorkflowEngine.__init__`. -/
def emptyEngine (V : Type) : WorkflowEngine V := ⟨[], [], []⟩

/-- `create_workflow` (lines 43-57): builds the step objects and stores them
under `workflow_id`, silently overwriting any previous definition. -/
def create_workflow {V : Type} (eng : WorkflowEngine V) (workflow_id : String)
    (steps : List (StepSpec V)) : WorkflowEngine V × String :=
  ({ eng with workflows := dictUpdate eng.workflows workflow_id (steps.map mkStep) },
   workflow_id)

/-! ### `_execute_steps` round structure -/

/-- Lines 146-151: `previous_results` is the `results` entry of the last
declared dependency, when the step has dependencies and that entry exists. -/
def lastDepResult {V : Type} (results : List (String × V)) (s : WorkflowStep V) :
    Option V :=
  match s.dependencies.getLast? with
  | none => none
  | some d => dictLookup results d

/-- Python truthiness of an optional payload (`None` is falsy). -/
def truthyOpt {V : Type} (truthy : V → Bool) : Option V → Bool
  | none => false
  | some v => truthy v

/-- Lines 184-187 of `_execute_step`: copy the task dict and substitute the
dependency result for an unset `data` entry — but only when `previous_results`
is truthy (`if task_data.get("data") is None and previous_results:`). -/
def launchInput {V : Type} (truthy : V → Bool) (results : List (String × V))
    (s : WorkflowStep V) : TaskPayload V :=
  let prev := lastDepResult results s
  if s.task.data.isNone && truthyOpt truthy prev then
    ⟨prev, s.task.rest⟩
  else
    s.task

/-- Replace the step object at index `i` (in-place mutation of the aliased
Python object). -/
def setStep {V : Type} (σ : ExecState V) (i : Nat) (s : WorkflowStep V) :
    ExecState V :=
  { σ with steps := σ.steps.set i s }

/-- `isReadyStep`: lines 123-124, a `PENDING` step all of whose dependencies are
in `completed_steps`. -/
def isReadyStep {V : Type} (completed : List String) (s : WorkflowStep V) : Bool :=
  s.status == .pending && s.dependencies.all (fun d => completed.contains d)

/-- Indices of the ready steps of the current round, in list order
(lines 121-125). -/
def readyIdx {V : Type} (σ : ExecState V) : List Nat :=
  (List.range σ.steps.length).filter fun i =>
    match σ.steps.get? i with
    | some s => isReadyStep σ.completed s
    | none => false

/-- Line 132: `any(s.status == TaskStatus.PENDING for s in steps)`. -/
def anyPending {V : Type} (σ : ExecState V) : Bool :=
  σ.steps.any fun s => s.status == .pending

/-- The launch loop over the ready steps (lines 142-157) fused with the start
of each launched coroutine (`_execute_step` lines 179-196): a ready step with
an unknown agent is immediately marked `FAILED`; a launched step records its
worker invocation, turns `IN_PROGRESS`, and on a raising worker turns `FAILED`
with the error text.  Returns the updated state together with the list of
gathered outcomes, in launch order (the `step_results` of `asyncio.gather`
with `return_exceptions=True`). -/
def launchPhase {V : Type} (truthy : V → Bool) (agents : AgentTable V) :
    ExecState V → List Nat → ExecState V × List (Except String V)
  | σ, [] => (σ, [])
  | σ, i :: rest =>
    match σ.steps.get? i with
    | none => launchPhase truthy agents σ rest
    | some s =>
      match agents s.agent_name with
      | none =>
        launchPhase truthy agents
          (setStep σ i
            { s with status := .failed,
                     error := some ("Agent " ++ s.agent_name ++ " not found") })
          rest
      | some w =>
        let input := launchInput truthy σ.results s
        let out := w input
        let s1 : WorkflowStep V :=
          match out with
          | .ok _ => { s with status := .in_progress }
          | .error e => { s with status := .failed, error := some e }
        let σ1 := setStep { σ with trace := σ.trace ++ [(s.step_id, input)] } i s1
        let r := launchPhase truthy agents σ1 rest
        (r.1, out :: r.2)

/-- The post-gather loop (lines 162-173).  Crucially it is fed
`ready.zip outs`: `for i, result in enumerate(step_results): step =
ready_steps[i]`, i.e. the i-th gathered outcome is attributed to the i-th
*ready* step, even though only the agent-present ready steps were launched. -/
def assignPhase {V : Type} (σ : ExecState V) :
    List (Nat × Except String V) → ExecState V
  | [] => σ
  | (i, out) :: rest =>
    match σ.steps.get? i with
    | none => assignPhase σ rest
    | some s =>
      match out with
      | .error e =>
        assignPhase (setStep σ i { s with status := .failed, error := some e }) rest
      | .ok v =>
        assignPhase
          { σ with
              steps := σ.steps.set i { s with status := .completed, result := some v },
              results := dictUpdate σ.results s.step_id v,
              completed := setInsert σ.completed s.step_id } rest

/-- One iteration body of the `while` loop of `_execute_steps` once the ready
set is known to be nonempty. -/
def roundNext {V : Type} (truthy : V → Bool) (agents : AgentTable V)
    (σ : ExecState V) : ExecState V :=
  let ready := readyIdx σ
  let r := launchPhase truthy agents σ ready
  assignPhase r.1 (ready.zip r.2)

/-- The exception text of line 138. -/
def stallMsg : String := "Circular dependency or missing dependency in workflow"

/-- Sentinel of the fuelled model only; `execLoop` is always called with enough
fuel (`pendingCount` strictly decreases every iteration, see
`execLoop_no_fuel_exhaustion`). -/
def fuelMsg : String := "model fuel exhausted"

/-- The `while len(completed_steps) < len(steps)` loop of `_execute_steps`
(lines 119-174).  Returns the final state together with the raised exception,
if any. -/
def execLoop {V : Type} (truthy : V → Bool) (agents : AgentTable V) :
    Nat → ExecState V → ExecState V × Option String
  | 0, σ => (σ, some fuelMsg)
  | fuel + 1, σ =>
    if σ.completed.length < σ.steps.length then
      if (readyIdx σ).isEmpty then
        if anyPending σ then (σ, some stallMsg) else (σ, none)
      else
        execLoop truthy agents fuel (roundNext truthy agents σ)
    else
      (σ, none)

/-- Initial `_execute_steps` state: `results = {}`, `completed_steps = set()`. -/
def initState {V : Type} (steps : List (WorkflowStep V)) : ExecState V :=
  ⟨steps, [], [], []⟩

/-- `_execute_steps` (lines 109-175). -/
def execute_steps {V : Type} (truthy : V → Bool) (agents : AgentTable V)
    (steps : List (WorkflowStep V)) : ExecState V × Option String :=
  execLoop truthy agents (steps.length + 1) (initState steps)

/-- The return value of `execute_workflow` (lines 88-92). -/
structure WorkflowResponse (V : Type) where
  workflow_id : String
  status : String
  results : List (String × V)
deriving DecidableEq

/-- Result of one `execute_workflow` call: updated engine object, the trace of
worker invocations performed during the run, and the returned value or raised
exception. -/
structure ExecOutcome (V : Type) where
  engine : WorkflowEngine V
  trace : List (String × TaskPayload V)
  response : Except String (WorkflowResponse V)

/-- `execute_workflow` (lines 59-107): unknown-workflow check before any state
change; otherwise run the steps (whose in-place mutation persists inside
`self.workflows` on success and failure alike), record the terminal status in
`active_workflows` and `workflow_history`, and return the response or re-raise
the exception. -/
def execute_workflow {V : Type} (truthy : V → Bool) (agents : AgentTable V)
    (eng : WorkflowEngine V) (workflow_id : String) : ExecOutcome V :=
  match dictLookup eng.workflows workflow_id with
  | none => ⟨eng, [], .error ("Workflow " ++ workflow_id ++ " not found")⟩
  | some steps =>
    let engA : WorkflowEngine V :=
      { eng with active_workflows :=
          dictUpdate eng.active_workflows workflow_id ⟨"running", none⟩ }
    let r := execute_steps truthy agents steps
    let engB : WorkflowEngine V :=
      { engA with workflows := dictUpdate engA.workflows workflow_id r.1.steps }
    match r.2 with
    | none =>
      ⟨{ engB with
          active_workflows :=
            dictUpdate engB.active_workflows workflow_id ⟨"completed", none⟩,
          workflow_history :=
            engB.workflow_history ++
              [⟨workflow_id, "completed", some r.1.results, none⟩] },
        r.1.trace, .ok ⟨workflow_id, "completed", r.1.results⟩⟩
    | some e =>
      ⟨{ engB with
          active_workflows :=
            dictUpdate engB.active_workflows workflow_id ⟨"failed", some e⟩,
          workflow_history :=
            engB.workflow_history ++ [⟨workflow_id, "failed", none, some e⟩] },
        r.1.trace, .error e⟩

/-! ### Task coordinator backlog (`task_coordinator.py`) -/

/-- A queued task dict (`add_task_to_queue` lines 142-150): id, lifecycle
status, result and error fields; `kind`-specific parameters are opaque to the
queue mechanics and folded into `params`.  Timestamps omitted. -/
structure QueuedTask (V : Type) where
  task_id : String
  params : V
  status : String
  result : Option V
  error : Option String
deriving DecidableEq

/-- Coordinator state relevant to the backlog (lines 14-16), plus an opaque
environment `E` standing for the engine/agents mutated by task execution. -/
structure CoordState (V E : Type) where
  env : E
  task_queue : List (QueuedTask V)
  active_tasks : List (String × QueuedTask V)
  task_history : List (QueuedTask V)

/-- The body of one drain iteration before the task runs (lines 159-161):
enter `active_tasks` and become `processing`.  (In Python `active_tasks` holds
a reference to the very task dict being mutated, so the stored record carries
the updated status.) -/
def drainBegin {V E : Type} (st : CoordState V E) (t : QueuedTask V) :
    CoordState V E × QueuedTask V :=
  let t1 : QueuedTask V := { t with status := "processing" }
  ({ st with active_tasks := dictUpdate st.active_tasks t.task_id t1 }, t1)

/-- The tail of one drain iteration (lines 181-194): record the outcome on the
task, append it to `task_history` and leave `active_tasks`.  The surrounding
`try`/`except` converts any exception from the task body into a `failed`
record with the error text, so the loop always continues. -/
def drainFinish {V E : Type} (st : CoordState V E) (t1 : QueuedTask V)
    (env2 : E) (out : Except String V) : CoordState V E :=
  let t2 : QueuedTask V :=
    match out with
    | .ok v => { t1 with status := "completed", result := some v }
    | .error e => { t1 with status := "failed", error := some e }
  { st with
      env := env2,
      active_tasks := dictDelete st.active_tasks t1.task_id,
      task_history := st.task_history ++ [t2] }

/-- One full iteration of the drain loop for the task popped from the head.
`perform` abstracts lines 163-179: dispatch on the task type, build the
corresponding workflow and run it through the engine, returning a result or
raising (unknown task types raise `ValueError`). -/
def drainStep {V E : Type} (perform : E → QueuedTask V → E × Except String V)
    (st : CoordState V E) (t : QueuedTask V) : CoordState V E :=
  let b := drainBegin st t
  let r := perform b.1.env b.2
  drainFinish b.1 b.2 r.1 r.2

/-- Structural recursion over the popped prefix of the queue. -/
def processQueueGo {V E : Type} (perform : E → QueuedTask V → E × Except String V) :
    List (QueuedTask V) → CoordState V E → CoordState V E
  | [], st => st
  | t :: rest, st =>
    processQueueGo perform rest (drainStep perform { st with task_queue := rest } t)

/-- `process_task_queue` (lines 152-194): `while self.task_queue:` pop the
head and run it to a terminal record, one task at a time. -/
def process_task_queue {V E : Type}
    (perform : E → QueuedTask V → E × Except String V) (st : CoordState V E) :
    CoordState V E :=
  processQueueGo perform st.task_queue { st with task_queue := [] }

/-! ### Verification memory (`verification_memory.py`) -/

/-- The `result` dict stored with a fact check; the summary only reads
`result.get("status")`, the rest is opaque. -/
structure FactCheckResult (V : Type) where
  status : Option String
  rest : V
deriving DecidableEq

/-- A stored fact check (`store_fact_check` lines 26-30), timestamp omitted. -/
structure FactCheck (V : Type) where
  claim : String
  result : FactCheckResult V
deriving DecidableEq

/-- A stored validation; the summary only reads `get("is_valid", False)`. -/
structure ValidationRec (V : Type) where
  is_valid : Option Bool
  rest : V
deriving DecidableEq

/-- `VerificationMemory` state relevant to `get_verification_summary`. -/
structure VerificationMemory (V : Type) where
  fact_checks : List (String × FactCheck V)
  validations : List (String × ValidationRec V)
deriving DecidableEq

/-- The summary dict returned by `get_verification_summary` (lines 106-113). -/
structure VerificationSummary where
  total_fact_checks : Nat
  verified_claims : Nat
  total_validations : Nat
  valid_data : Nat
  verification_rate : ℚ
  validation_rate : ℚ
deriving DecidableEq

/-- Python division, which raises `ZeroDivisionError` on a zero denominator. -/
def pythonDiv (a b : ℚ) : Except String ℚ :=
  if b = 0 then .error "ZeroDivisionError" else .ok (a / b)

/-- Number of fact checks whose `result.get("status") == "verified"`
(lines 101-102). -/
def verifiedCount {V : Type} (m : VerificationMemory V) : Nat :=
  (m.fact_checks.filter fun p => p.2.result.status == some "verified").length

/-- Number of validations with `get("is_valid", False)` true (lines 103-104). -/
def validCount {V : Type} (m : VerificationMemory V) : Nat :=
  (m.validations.filter fun p => p.2.is_valid.getD false == true).length

/-- `get_verification_summary` (lines 96-113): the two rate divisions are each
guarded by a `if total > 0 else 0` conditional expression, so the raising
division is only evaluated on a positive denominator. -/
def get_verification_summary {V : Type} (m : VerificationMemory V) :
    Except String VerificationSummary :=
  let total_fact_checks := m.fact_checks.length
  let total_validations := m.validations.length
  let verified_claims := verifiedCount m
  let valid_data := validCount m
  match (if total_fact_checks > 0 then
      pythonDiv verified_claims total_fact_checks
    else Except.ok 0) with
  | Except.error e => Except.error e
  | Except.ok verification_rate =>
    match (if total_validations > 0 then
        pythonDiv valid_data total_validations
      else Except.ok 0) with
    | Except.error e => Except.error e
    | Except.ok validation_rate =>
      Except.ok ⟨total_fact_checks, verified_claims, total_validations,
        valid_data, verification_rate, validation_rate⟩

/-! ### Shared knowledge repository (`shared_knowledge.py`) -/

/-- A knowledge-graph node (`add_knowledge_node` lines 38-43), timestamp
omitted. -/
structure KGNode (V : Type) where
  data : V
  source : String
  access_count : Nat
deriving DecidableEq

/-- A relationship edge (`add_relationship` lines 57-61), timestamp omitted. -/
structure Relationship where
  target : String
  rel_type : String
deriving DecidableEq

/-- `SharedKnowledgeRepository` state relevant to export/import: the knowledge
graph and the relationships dict.  The four tier memories are not read back by
`import_knowledge` (source line 142) and are out of scope of the round trip. -/
structure SharedKnowledge (V : Type) where
  knowledge_graph : List (String × KGNode V)
  relationships : List (String × List Relationship)
deriving DecidableEq

/-- `SharedKnowledgeRepository.__init__`: empty graph, no relationships. -/
def emptyShared (V : Type) : SharedKnowledge V := ⟨[], []⟩

/-- The structured content of the JSON string produced by `export_knowledge`,
restricted to the sections `import_knowledge` consumes.  `json.dumps` followed
by `json.loads` is modelled as the identity on this structured value. -/
structure Snapshot (V : Type) where
  knowledge_graph : List (String × KGNode V)
  relationships : List (String × List Relationship)
deriving DecidableEq

/-- `export_knowledge` (lines 121-134): serialize on `"json"`, raise
`ValueError` on any other format. -/
def export_knowledge {V : Type} (st : SharedKnowledge V) (format : String) :
    Except String (Snapshot V) :=
  if format = "json" then
    .ok ⟨st.knowledge_graph, st.relationships⟩
  else
    .error ("Unsupported export format: " ++ format)

/-- `import_knowledge` (lines 136-144): `dict.update` the graph and the
relationships from the snapshot on `"json"`, raise `ValueError` otherwise.
Tier data is not imported. -/
def import_knowledge {V : Type} (st : SharedKnowledge V) (snap : Snapshot V)
    (format : String) : Except String (SharedKnowledge V) :=
  if format = "json" then
    .ok { st with
            knowledge_graph := dictUpdateAll st.knowledge_graph snap.knowledge_graph,
            relationships := dictUpdateAll st.relationships snap.relationships }
  else
    .error ("Unsupported import format: " ++ format)

/-! ### Derived model notions used in the specifications -/

/-- The immutable attributes of a step object; the engine only ever mutates
`status`, `result` and `error`. -/
structure StepSkel (V : Type) where
  sid : String
  agent : String
  task : TaskPayload V
  deps : List String
deriving DecidableEq

/-- Project a step to its immutable attributes. -/
def skel {V : Type} (s : WorkflowStep V) : StepSkel V :=
  ⟨s.step_id, s.agent_name, s.task, s.dependencies⟩

/-- The step ids of a step list, in order. -/
def stepIds {V : Type} (steps : List (WorkflowStep V)) : List String :=
  steps.map (fun s => s.step_id)

/-- Number of `PENDING` steps of a state. -/
def pendingCount {V : Type} (σ : ExecState V) : Nat :=
  σ.steps.countP (fun s => s.status == .pending)

/-- Step ids are unique within the workflow (spec §3 data-model invariant). -/
def StepsNodup {V : Type} (steps : List (WorkflowStep V)) : Prop :=
  (stepIds steps).Nodup

/-- Every declared dependency names a step of the same workflow. -/
def DepsExist {V : Type} (steps : List (WorkflowStep V)) : Prop :=
  ∀ s ∈ steps, ∀ d ∈ s.dependencies, d ∈ stepIds steps

/-- Acyclicity of the dependency graph, witnessed by a rank function under
which every dependency strictly precedes its dependent (for finite graphs this
is equivalent to the absence of cycles). -/
def RankedBy {V : Type} (steps : List (WorkflowStep V)) (rank : String → Nat) :
    Prop :=
  ∀ s ∈ steps, ∀ d ∈ s.dependencies, rank d < rank s.step_id

/-- Every step capability is present in the supplied table. -/
def AgentsPresent {V : Type} (agents : AgentTable V) (steps : List (WorkflowStep V)) :
    Prop :=
  ∀ s ∈ steps, (agents s.agent_name).isSome

/-- Every step capability is present and its worker never raises. -/
def WorkersSucceed {V : Type} (agents : AgentTable V)
    (steps : List (WorkflowStep V)) : Prop :=
  ∀ s ∈ steps, ∃ w, agents s.agent_name = some w ∧ ∀ p, ∃ v, w p = Except.ok v

/-- All steps still pending (freshly created workflow). -/
def AllPending {V : Type} (steps : List (WorkflowStep V)) : Prop :=
  ∀ s ∈ steps, s.status = TaskStatus.pending

/-- Inter-round statuses observed when every capability is present: no step is
left `IN_PROGRESS` or `CANCELLED` between rounds. -/
def Healthy {V : Type} (σ : ExecState V) : Prop :=
  ∀ s ∈ σ.steps, s.status = TaskStatus.pending ∨ s.status = TaskStatus.completed ∨
    s.status = TaskStatus.failed

/-- Core soundness of the `completed_steps` set: it is duplicate-free and every
recorded id belongs to a step currently in the terminal `COMPLETED` state. -/
def InvG {V : Type} (σ : ExecState V) : Prop :=
  σ.completed.Nodup ∧
  ∀ id ∈ σ.completed, ∃ s ∈ σ.steps, s.step_id = id ∧ s.status = TaskStatus.completed

/-- Loop invariant of a run in which every launched worker succeeds, relative
to the original step list `steps0`. -/
def InvC {V : Type} (steps0 : List (WorkflowStep V)) (σ : ExecState V) : Prop :=
  σ.steps.map skel = steps0.map skel ∧
  (∀ s ∈ σ.steps, s.status = TaskStatus.pending ∨ s.status = TaskStatus.completed) ∧
  (∀ s ∈ σ.steps, s.status = TaskStatus.completed → s.step_id ∈ σ.completed) ∧
  σ.results.map Prod.fst = σ.completed

/-- Inter-round reachability within one `_execute_steps` run: `σ2` is visited
by the `while` loop started at `σ` (each step is one full round taken when the
loop guard holds and the ready set is nonempty). -/
inductive LoopReaches {V : Type} (truthy : V → Bool) (agents : AgentTable V) :
    ExecState V → ExecState V → Prop
  | refl (σ : ExecState V) : LoopReaches truthy agents σ σ
  | step (σ σ2 : ExecState V) :
      σ.completed.length < σ.steps.length →
      (readyIdx σ).isEmpty = false →
      LoopReaches truthy agents (roundNext truthy agents σ) σ2 →
      LoopReaches truthy agents σ σ2

/-! ## Generic list and dict lemmas -/

theorem list_get?_set_self {α : Type} (l : List α) (i : Nat) (a : α)
    (h : i < l.length) : (l.set i a).get? i = some a := by
  induction l generalizing i with
  | nil => exact absurd h (Nat.not_lt_zero i)
  | cons x xs ih =>
    cases i with
    | zero => rfl
    | succ j => simpa using ih j (by simpa using h)

theorem list_set_of_get? {α : Type} (l : List α) (i : Nat) (a : α)
    (h : l.get? i = some a) : l.set i a = l := by
  induction l generalizing i with
  | nil => rfl
  | cons x xs ih =>
    cases i with
    | zero => simp only [List.get?] at h; injection h with h; simp [List.set, h]
    | succ j => simp only [List.get?] at h; simp [List.set, ih j h]

theorem list_map_set_invariant {α β : Type} (f : α → β) (l : List α) (i : Nat)
    (a b : α) (hg : l.get? i = some a) (hf : f a = f b) :
    (l.set i b).map f = l.map f := by
  rw [List.map_set]
  apply list_set_of_get?
  rw [List.get?_map, hg]
  simp [hf]

theorem nodup_map_get?_inj {α β : Type} (f : α → β) (l : List α)
    (hn : (l.map f).Nodup) (i j : Nat) (a b : α) (ha : l.get? i = some a)
    (hb : l.get? j = some b) (hfab : f a = f b) : i = j := by
  have hi : i < l.length := by
    rcases List.get?_eq_some.mp ha with ⟨h, _⟩
    exact h
  refine @List.get?_inj i β (l.map f) j (by simpa using hi) hn ?_
  rw [List.get?_map, List.get?_map, ha, hb]
  simp [hfab]

theorem countP_le_pointwise {α : Type} (p : α → Bool) :
    ∀ (l l' : List α), l.length = l'.length →
    (∀ i a', l'.get? i = some a' → p a' = true → l.get? i = some a') →
    l'.countP p ≤ l.countP p := by
  intro l
  induction l with
  | nil =>
    intro l' hlen _
    have : l' = [] := List.eq_nil_of_length_eq_zero hlen.symm
    simp [this]
  | cons x xs ih =>
    intro l' hlen hpt
    cases l' with
    | nil => simp
    | cons y ys =>
      have htail : ys.countP p ≤ xs.countP p := by
        refine ih ys (by simpa using hlen) ?_
        intro i a' hget hp
        exact hpt (i + 1) a' (by simpa using hget) hp
      rw [List.countP_cons, List.countP_cons]
      by_cases hy : p y = true
      · have hx : (x :: xs).get? 0 = some y := hpt 0 y rfl hy
        have hxy : x = y := by simpa using hx
        simp [hy, hxy, Nat.add_le_add htail (le_refl 1)]
      · simp only [hy, if_false, Nat.add_zero]
        exact le_trans htail (Nat.le_add_right _ _)

theorem countP_lt_pointwise {α : Type} (p : α → Bool) :
    ∀ (l l' : List α) (i₀ : Nat), l.length = l'.length →
    (∀ i a', l'.get? i = some a' → p a' = true → l.get? i = some a') →
    ∀ a a', l.get? i₀ = some a → p a = true → l'.get? i₀ = some a' →
    p a' = false → l'.countP p < l.countP p := by
  intro l
  induction l with
  | nil =>
    intro l' i₀ _ _ a a' ha _ _ _
    simp [List.get?] at ha
  | cons x xs ih =>
    intro l' i₀ hlen hpt a a' ha hpa ha' hpa'
    cases l' with
    | nil => simp [List.get?] at ha'
    | cons y ys =>
      have hpt' : ∀ i b, ys.get? i = some b → p b = true → xs.get? i = some b := by
        intro i b hget hp
        exact hpt (i + 1) b (by simpa using hget) hp
      rw [List.countP_cons, List.countP_cons]
      cases i₀ with
      | zero =>
        have hxa : x = a := by simpa using ha
        have hya : y = a' := by simpa using ha'
        have htail : ys.countP p ≤ xs.countP p :=
          countP_le_pointwise p xs ys (by simpa using hlen) hpt'
        rw [hya, hpa', hxa, hpa]
        simpa using Nat.lt_succ_of_le htail
      | succ j =>
        have htail : ys.countP p < xs.countP p :=
          ih ys j (by simpa using hlen) hpt' a a' (by simpa using ha) hpa
            (by simpa using ha') hpa'
        by_cases hy : p y = true
        · have hx : (x :: xs).get? 0 = some y := hpt 0 y rfl hy
          have hxy : x = y := by simpa using hx
          simp [hy, hxy, Nat.add_lt_add_right htail 1]
        · simp only [hy, if_false, Nat.add_zero]
          exact lt_of_lt_of_le htail (Nat.le_add_right _ _)

theorem zip_fst_sublist {α β : Type} :
    ∀ (l₁ : List α) (l₂ : List β), List.Sublist ((l₁.zip l₂).map Prod.fst) l₁ := by
  intro l₁
  induction l₁ with
  | nil => intro l₂; simp
  | cons x xs ih =>
    intro l₂
    cases l₂ with
    | nil => simp
    | cons y ys => simpa using List.Sublist.cons₂ x (ih ys)

theorem exists_min_by {α : Type} (f : α → Nat) :
    ∀ (l : List α), l ≠ [] → ∃ a, a ∈ l ∧ ∀ b ∈ l, f a ≤ f b := by
  intro l
  induction l with
  | nil => intro h; exact absurd rfl h
  | cons x xs ih =>
    intro _
    cases xs with
    | nil => exact ⟨x, List.mem_singleton_self x, by simp⟩
    | cons z zs =>
      obtain ⟨m, hm, hmin⟩ := ih (by simp)
      by_cases hc : f x ≤ f m
      · refine ⟨x, List.mem_cons_self x _, ?_⟩
        intro b hb
        rcases List.mem_cons.mp hb with hbx | hbt
        · exact hbx ▸ le_refl _
        · exact le_trans hc (hmin b hbt)
      · refine ⟨m, List.mem_cons_of_mem x hm, ?_⟩
        intro b hb
        rcases List.mem_cons.mp hb with hbx | hbt
        · exact hbx ▸ le_of_not_le hc
        · exact hmin b hbt

/-! ## Dict and set helper lemmas -/

theorem dictLookup_update_self {α : Type} (l : List (String × α)) (k : String)
    (v : α) : dictLookup (dictUpdate l k v) k = some v := by
  induction l with
  | nil => simp [dictUpdate, dictLookup]
  | cons p rest ih =>
    by_cases h : p.1 = k
    · simp [dictUpdate, dictLookup, h]
    · simp [dictUpdate, dictLookup, h, ih]

theorem dictLookup_update_other {α : Type} (l : List (String × α))
    (k k' : String) (v : α) (h : k' ≠ k) :
    dictLookup (dictUpdate l k v) k' = dictLookup l k' := by
  induction l with
  | nil =>
    have hk : ¬ k = k' := fun hh => h hh.symm
    simp [dictUpdate, dictLookup, hk]
  | cons p rest ih =>
    by_cases hp : p.1 = k
    · have hk : ¬ k = k' := fun hh => h hh.symm
      simp [dictUpdate, dictLookup, hp, hk]
    · by_cases hp' : p.1 = k'
      · simp [dictUpdate, dictLookup, hp, hp', h]
      · simp [dictUpdate, dictLookup, hp, hp', ih]

theorem dictUpdate_fresh {α : Type} (l : List (String × α)) (k : String) (v : α)
    (h : k ∉ l.map Prod.fst) : dictUpdate l k v = l ++ [(k, v)] := by
  induction l with
  | nil => rfl
  | cons p rest ih =>
    simp only [List.map_cons, List.mem_cons] at h
    push_neg at h
    have hp : ¬ p.1 = k := fun hh => h.1 hh.symm
    simp [dictUpdate, hp, ih h.2]

theorem mem_setInsert (l : List String) (k x : String) :
    x ∈ setInsert l k ↔ x ∈ l ∨ x = k := by
  by_cases h : k ∈ l
  · simp only [setInsert, if_pos h]
    constructor
    · exact Or.inl
    · rintro (hx | rfl)
      · exact hx
      · exact h
  · simp [setInsert, if_neg h]

theorem setInsert_nodup (l : List String) (k : String) (h : l.Nodup) :
    (setInsert l k).Nodup := by
  by_cases hk : k ∈ l
  · simpa [setInsert, if_pos hk] using h
  · simp only [setInsert, if_neg hk]
    refine List.Nodup.append h (List.nodup_singleton k) ?_
    intro a ha hak
    rw [List.mem_singleton] at hak
    exact hk (hak ▸ ha)

theorem setInsert_fresh (l : List String) (k : String) (h : k ∉ l) :
    setInsert l k = l ++ [k] := by
  simp [setInsert, if_neg h]

theorem setInsert_mem_of_mem (l : List String) (k x : String) (h : x ∈ l) :
    x ∈ setInsert l k := (mem_setInsert l k x).mpr (Or.inl h)

/-! ## Launch-phase lemmas -/

theorem skel_status_update {V : Type} (s : WorkflowStep V) (st : TaskStatus) :
    skel { s with status := st } = skel s := rfl

theorem launchPhase_spec {V : Type} (truthy : V → Bool) (agents : AgentTable V) :
    ∀ (l : List Nat) (σ : ExecState V),
      (launchPhase truthy agents σ l).1.results = σ.results ∧
      (launchPhase truthy agents σ l).1.completed = σ.completed ∧
      (launchPhase truthy agents σ l).1.steps.map skel = σ.steps.map skel ∧
      (∀ j, j ∉ l → (launchPhase truthy agents σ l).1.steps.get? j = σ.steps.get? j) := by
  intro l
  induction l with
  | nil => intro σ; exact ⟨rfl, rfl, rfl, fun j _ => rfl⟩
  | cons i rest ih =>
    intro σ
    cases hg : σ.steps.get? i with
    | none =>
      have heq : launchPhase truthy agents σ (i :: rest) =
          launchPhase truthy agents σ rest := by
        simp only [launchPhase, hg]
      rw [heq]
      obtain ⟨h1, h2, h3, h4⟩ := ih σ
      exact ⟨h1, h2, h3, fun j hj => h4 j (fun hm => hj (List.mem_cons_of_mem i hm))⟩
    | some s =>
      cases ha : agents s.agent_name with
      | none =>
        set sF : WorkflowStep V :=
          { s with status := .failed,
                   error := some ("Agent " ++ s.agent_name ++ " not found") } with hsF
        have heq : launchPhase truthy agents σ (i :: rest) =
            launchPhase truthy agents (setStep σ i sF) rest := by
          simp only [launchPhase, hg, ha]
        rw [heq]
        obtain ⟨h1, h2, h3, h4⟩ := ih (setStep σ i sF)
        have hskel : (setStep σ i sF).steps.map skel = σ.steps.map skel :=
          list_map_set_invariant skel σ.steps i s sF hg rfl
        refine ⟨h1, h2, h3.trans hskel, ?_⟩
        intro j hj
        have hji : i ≠ j := fun hh => hj (hh ▸ List.mem_cons_self i rest)
        have := h4 j (fun hm => hj (List.mem_cons_of_mem i hm))
        rw [this]
        exact List.get?_set_ne sF σ.steps hji
      | some w =>
        cases hout : w (launchInput truthy σ.results s) with
        | ok v =>
          set s1 : WorkflowStep V := { s with status := .in_progress } with hs1
          set σ1 : ExecState V :=
            setStep { σ with trace := σ.trace ++ [(s.step_id, launchInput truthy σ.results s)] } i s1 with hσ1
          have heq : (launchPhase truthy agents σ (i :: rest)).1 =
              (launchPhase truthy agents σ1 rest).1 := by
            simp only [launchPhase, hg, ha, hout, hs1, hσ1]
          rw [heq]
          obtain ⟨h1, h2, h3, h4⟩ := ih σ1
          have hskel : σ1.steps.map skel = σ.steps.map skel :=
            list_map_set_invariant skel σ.steps i s s1 hg rfl
          refine ⟨h1, h2, h3.trans hskel, ?_⟩
          intro j hj
          have hji : i ≠ j := fun hh => hj (hh ▸ List.mem_cons_self i rest)
          have := h4 j (fun hm => hj (List.mem_cons_of_mem i hm))
          rw [this]
          exact List.get?_set_ne s1 σ.steps hji
        | error e =>
          set s1 : WorkflowStep V := { s with status := .failed, error := some e } with hs1
          set σ1 : ExecState V :=
            setStep { σ with trace := σ.trace ++ [(s.step_id, launchInput truthy σ.results s)] } i s1 with hσ1
          have heq : (launchPhase truthy agents σ (i :: rest)).1 =
              (launchPhase truthy agents σ1 rest).1 := by
            simp only [launchPhase, hg, ha, hout, hs1, hσ1]
          rw [heq]
          obtain ⟨h1, h2, h3, h4⟩ := ih σ1
          have hskel : σ1.steps.map skel = σ.steps.map skel := by
            refine list_map_set_invariant skel σ.steps i s s1 hg ?_
            rw [hs1]; rfl
          refine ⟨h1, h2, h3.trans hskel, ?_⟩
          intro j hj
          have hji : i ≠ j := fun hh => hj (hh ▸ List.mem_cons_self i rest)
          have := h4 j (fun hm => hj (List.mem_cons_of_mem i hm))
          rw [this]
          exact List.get?_set_ne s1 σ.steps hji

theorem launchPhase_steps_length {V : Type} (truthy : V → Bool)
    (agents : AgentTable V) (l : List Nat) (σ : ExecState V) :
    (launchPhase truthy agents σ l).1.steps.length = σ.steps.length := by
  have h := (launchPhase_spec truthy agents l σ).2.2.1
  have := congrArg List.length h
  simpa using this

theorem launchPhase_status {V : Type} (truthy : V → Bool) (agents : AgentTable V) :
    ∀ (l : List Nat) (σ : ExecState V), l.Nodup →
      ∀ i ∈ l, ∀ s', (launchPhase truthy agents σ l).1.steps.get? i = some s' →
        s'.status = TaskStatus.in_progress ∨ s'.status = TaskStatus.failed := by
  intro l
  induction l with
  | nil => intro σ _ i hi; exact absurd hi (List.not_mem_nil i)
  | cons i rest ih =>
    intro σ hnd j hj s' hs'
    have hndr : rest.Nodup := (List.nodup_cons.mp hnd).2
    have hir : i ∉ rest := (List.nodup_cons.mp hnd).1
    cases hg : σ.steps.get? i with
    | none =>
      have heq : launchPhase truthy agents σ (i :: rest) =
          launchPhase truthy agents σ rest := by
        simp only [launchPhase, hg]
      rw [heq] at hs'
      rcases List.mem_cons.mp hj with hji | hjr
      · subst hji
        have hu := (launchPhase_spec truthy agents rest σ).2.2.2 j hir
        rw [hu, hg] at hs'
        exact absurd hs' (Option.noConfusion)
      · exact ih σ hndr j hjr s' hs'
    | some s =>
      have hilen : i < σ.steps.length := by
        rcases List.get?_eq_some.mp hg with ⟨h, _⟩
        exact h
      cases ha : agents s.agent_name with
      | none =>
        set sF : WorkflowStep V :=
          { s with status := .failed,
                   error := some ("Agent " ++ s.agent_name ++ " not found") } with hsF
        have heq : launchPhase truthy agents σ (i :: rest) =
            launchPhase truthy agents (setStep σ i sF) rest := by
          simp only [launchPhase, hg, ha]
        rw [heq] at hs'
        rcases List.mem_cons.mp hj with hji | hjr
        · subst hji
          have hu := (launchPhase_spec truthy agents rest (setStep σ j sF)).2.2.2 j hir
          rw [hu] at hs'
          have : (setStep σ j sF).steps.get? j = some sF :=
            list_get?_set_self σ.steps j sF hilen
          rw [this] at hs'
          injection hs' with hs'
          right
          rw [← hs']
        · exact ih (setStep σ i sF) hndr j hjr s' hs'
      | some w =>
        cases hout : w (launchInput truthy σ.results s) with
        | ok v =>
          set s1 : WorkflowStep V := { s with status := .in_progress } with hs1
          set σ1 : ExecState V :=
            setStep { σ with trace := σ.trace ++ [(s.step_id, launchInput truthy σ.results s)] } i s1 with hσ1
          have heq : (launchPhase truthy agents σ (i :: rest)).1 =
              (launchPhase truthy agents σ1 rest).1 := by
            simp only [launchPhase, hg, ha, hout, hs1, hσ1]
          rw [heq] at hs'
          rcases List.mem_cons.mp hj with hji | hjr
          · subst hji
            have hu := (launchPhase_spec truthy agents rest σ1).2.2.2 j hir
            rw [hu] at hs'
            have : σ1.steps.get? j = some s1 :=
              list_get?_set_self _ j s1 (by simpa using hilen)
            rw [this] at hs'
            injection hs' with hs'
            left
            rw [← hs']
          · exact ih σ1 hndr j hjr s' hs'
        | error e =>
          set s1 : WorkflowStep V := { s with status := .failed, error := some e } with hs1
          set σ1 : ExecState V :=
            setStep { σ with trace := σ.trace ++ [(s.step_id, launchInput truthy σ.results s)] } i s1 with hσ1
          have heq : (launchPhase truthy agents σ (i :: rest)).1 =
              (launchPhase truthy agents σ1 rest).1 := by
            simp only [launchPhase, hg, ha, hout, hs1, hσ1]
          rw [heq] at hs'
          rcases List.mem_cons.mp hj with hji | hjr
          · subst hji
            have hu := (launchPhase_spec truthy agents rest σ1).2.2.2 j hir
            rw [hu] at hs'
            have : σ1.steps.get? j = some s1 :=
              list_get?_set_self _ j s1 (by simpa using hilen)
            rw [this] at hs'
            injection hs' with hs'
            right
            rw [← hs']
          · exact ih σ1 hndr j hjr s' hs'

theorem launchPhase_outs_length {V : Type} (truthy : V → Bool) (agents : AgentTable V) :
    ∀ (l : List Nat) (σ : ExecState V),
      (∀ i ∈ l, ∃ s, σ.steps.get? i = some s ∧ (agents s.agent_name).isSome) →
      (launchPhase truthy agents σ l).2.length = l.length := by
  intro l
  induction l with
  | nil => intro σ _; rfl
  | cons i rest ih =>
    intro σ hyp
    obtain ⟨s, hg, hsome⟩ := hyp i (List.mem_cons_self i rest)
    obtain ⟨w, ha⟩ := Option.isSome_iff_exists.mp hsome
    have hilen : i < σ.steps.length := by
      rcases List.get?_eq_some.mp hg with ⟨h, _⟩
      exact h
    cases hout : w (launchInput truthy σ.results s) with
    | ok v =>
      set s1 : WorkflowStep V := { s with status := .in_progress } with hs1
      set σ1 : ExecState V :=
        setStep { σ with trace := σ.trace ++ [(s.step_id, launchInput truthy σ.results s)] } i s1 with hσ1
      have heq : launchPhase truthy agents σ (i :: rest) =
          ((launchPhase truthy agents σ1 rest).1,
            w (launchInput truthy σ.results s) :: (launchPhase truthy agents σ1 rest).2) := by
        simp only [launchPhase, hg, ha, hout, hs1, hσ1]
      rw [heq]
      have htail : (launchPhase truthy agents σ1 rest).2.length = rest.length := by
        refine ih σ1 ?_
        intro j hj
        obtain ⟨t, hgt, hst⟩ := hyp j (List.mem_cons_of_mem i hj)
        by_cases hji : j = i
        · subst hji
          rw [hg] at hgt
          injection hgt with hgt
          refine ⟨s1, list_get?_set_self _ j s1 (by simpa using hilen), ?_⟩
          rw [hs1]
          simpa [hgt] using hst
        · refine ⟨t, ?_, hst⟩
          have : σ1.steps.get? j = σ.steps.get? j :=
            List.get?_set_ne s1 _ (fun hh => hji hh.symm)
          rw [this, hgt]
      simp [htail]
    | error e =>
      set s1 : WorkflowStep V := { s with status := .failed, error := some e } with hs1
      set σ1 : ExecState V :=
        setStep { σ with trace := σ.trace ++ [(s.step_id, launchInput truthy σ.results s)] } i s1 with hσ1
      have heq : launchPhase truthy agents σ (i :: rest) =
          ((launchPhase truthy agents σ1 rest).1,
            w (launchInput truthy σ.results s) :: (launchPhase truthy agents σ1 rest).2) := by
        simp only [launchPhase, hg, ha, hout, hs1, hσ1]
      rw [heq]
      have htail : (launchPhase truthy agents σ1 rest).2.length = rest.length := by
        refine ih σ1 ?_
        intro j hj
        obtain ⟨t, hgt, hst⟩ := hyp j (List.mem_cons_of_mem i hj)
        by_cases hji : j = i
        · subst hji
          rw [hg] at hgt
          injection hgt with hgt
          refine ⟨s1, list_get?_set_self _ j s1 (by simpa using hilen), ?_⟩
          rw [hs1]
          simpa [hgt] using hst
        · refine ⟨t, ?_, hst⟩
          have : σ1.steps.get? j = σ.steps.get? j :=
            List.get?_set_ne s1 _ (fun hh => hji hh.symm)
          rw [this, hgt]
      simp [htail]

theorem launchPhase_ok {V : Type} (truthy : V → Bool) (agents : AgentTable V) :
    ∀ (l : List Nat) (σ : ExecState V), l.Nodup →
      (∀ i ∈ l, ∃ s w, σ.steps.get? i = some s ∧ agents s.agent_name = some w ∧
        ∃ v, w (launchInput truthy σ.results s) = Except.ok v) →
      (∀ o ∈ (launchPhase truthy agents σ l).2, ∃ v, o = Except.ok v) ∧
      (∀ i ∈ l, ∃ s, σ.steps.get? i = some s ∧
        (launchPhase truthy agents σ l).1.steps.get? i =
          some { s with status := TaskStatus.in_progress }) := by
  intro l
  induction l with
  | nil =>
    intro σ _ _
    exact ⟨fun o ho => absurd ho (List.not_mem_nil o), fun i hi => absurd hi (List.not_mem_nil i)⟩
  | cons i rest ih =>
    intro σ hnd hyp
    have hndr : rest.Nodup := (List.nodup_cons.mp hnd).2
    have hir : i ∉ rest := (List.nodup_cons.mp hnd).1
    obtain ⟨s, w, hg, ha, v, hok⟩ := hyp i (List.mem_cons_self i rest)
    have hilen : i < σ.steps.length := by
      rcases List.get?_eq_some.mp hg with ⟨h, _⟩
      exact h
    set s1 : WorkflowStep V := { s with status := .in_progress } with hs1
    set σ1 : ExecState V :=
      setStep { σ with trace := σ.trace ++ [(s.step_id, launchInput truthy σ.results s)] } i s1 with hσ1
    have heq : launchPhase truthy agents σ (i :: rest) =
        ((launchPhase truthy agents σ1 rest).1,
          w (launchInput truthy σ.results s) :: (launchPhase truthy agents σ1 rest).2) := by
      simp only [launchPhase, hg, ha, hok, hs1, hσ1]
    have htr : ∀ j ∈ rest, σ1.steps.get? j = σ.steps.get? j := by
      intro j hj
      exact List.get?_set_ne s1 _ (fun hh => hir (hh ▸ hj))
    have hhyp1 : ∀ j ∈ rest, ∃ t u, σ1.steps.get? j = some t ∧ agents t.agent_name = some u ∧
        ∃ v2, u (launchInput truthy σ1.results t) = Except.ok v2 := by
      intro j hj
      obtain ⟨t, u, hgt, hat, v2, hv2⟩ := hyp j (List.mem_cons_of_mem i hj)
      refine ⟨t, u, (htr j hj).trans hgt, hat, v2, ?_⟩
      have hres : σ1.results = σ.results := rfl
      rw [hres]
      exact hv2
    obtain ⟨ihouts, ihsteps⟩ := ih σ1 hndr hhyp1
    rw [heq]
    constructor
    · intro o ho
      rcases List.mem_cons.mp ho with rfl | hot
      · exact ⟨v, hok⟩
      · exact ihouts o hot
    · intro j hj
      rcases List.mem_cons.mp hj with hji | hjr
      · subst hji
        refine ⟨s, hg, ?_⟩
        have hu := (launchPhase_spec truthy agents rest σ1).2.2.2 j hir
        rw [hu]
        exact list_get?_set_self _ j s1 (by simpa using hilen)
      · obtain ⟨t, hgt, hres⟩ := ihsteps j hjr
        exact ⟨t, (htr j hjr).symm.trans hgt, hres⟩

/-! ## Assign-phase lemmas -/

theorem assignPhase_spec {V : Type} :
    ∀ (pairs : List (Nat × Except String V)) (σ : ExecState V),
      (pairs.map Prod.fst).Nodup →
      (assignPhase σ pairs).steps.length = σ.steps.length ∧
      (assignPhase σ pairs).steps.map skel = σ.steps.map skel ∧
      (∀ j, j ∉ pairs.map Prod.fst →
        (assignPhase σ pairs).steps.get? j = σ.steps.get? j) ∧
      (∀ j s', (assignPhase σ pairs).steps.get? j = some s' →
        s'.status = TaskStatus.pending → σ.steps.get? j = some s') ∧
      (∀ id ∈ (assignPhase σ pairs).completed, id ∈ σ.completed ∨
        ∃ j s', (assignPhase σ pairs).steps.get? j = some s' ∧
          s'.step_id = id ∧ s'.status = TaskStatus.completed) ∧
      (σ.completed.Nodup → (assignPhase σ pairs).completed.Nodup) ∧
      (assignPhase σ pairs).trace = σ.trace ∧
      (∀ id ∈ σ.completed, id ∈ (assignPhase σ pairs).completed) ∧
      (∀ p ∈ pairs, ∀ s0, σ.steps.get? p.1 = some s0 →
        ∃ s', (assignPhase σ pairs).steps.get? p.1 = some s' ∧
          (s'.status = TaskStatus.completed ∨ s'.status = TaskStatus.failed)) := by
  intro pairs
  induction pairs with
  | nil =>
    intro σ _
    refine ⟨rfl, rfl, fun j _ => rfl, ?_, ?_, fun h => h, rfl, fun id h => h, ?_⟩
    · intro j s' h _; exact h
    · intro id h; exact Or.inl h
    · intro p hp; exact absurd hp (List.not_mem_nil p)
  | cons pr rest ih =>
    intro σ hnd
    obtain ⟨i, out⟩ := pr
    have hndr : (rest.map Prod.fst).Nodup := (List.nodup_cons.mp (by simpa using hnd)).2
    have hir : i ∉ rest.map Prod.fst := (List.nodup_cons.mp (by simpa using hnd)).1
    cases hg : σ.steps.get? i with
    | none =>
      have heq : assignPhase σ ((i, out) :: rest) = assignPhase σ rest := by
        simp only [assignPhase, hg]
      rw [heq]
      obtain ⟨h1, h2, h3, h4, h5, h6, h7, h8, h9⟩ := ih σ hndr
      refine ⟨h1, h2, ?_, h4, h5, h6, h7, h8, ?_⟩
      · intro j hj
        exact h3 j (fun hm => hj (by simpa using Or.inr hm))
      · intro p hp s0 hs0
        rcases List.mem_cons.mp hp with hpi | hpr
        · rw [hpi] at hs0
          simp only at hs0
          rw [hg] at hs0
          exact absurd hs0 (Option.noConfusion)
        · exact h9 p hpr s0 hs0
    | some s =>
      have hilen : i < σ.steps.length := by
        rcases List.get?_eq_some.mp hg with ⟨h, _⟩
        exact h
      cases out with
      | error e =>
        set sE : WorkflowStep V := { s with status := .failed, error := some e } with hsE
        set σA : ExecState V := setStep σ i sE with hσA
        have heq : assignPhase σ ((i, Except.error e) :: rest) = assignPhase σA rest := by
          simp only [assignPhase, hg, hσA, hsE, setStep]
        rw [heq]
        obtain ⟨h1, h2, h3, h4, h5, h6, h7, h8, h9⟩ := ih σA hndr
        have hAg : ∀ j, j ≠ i → σA.steps.get? j = σ.steps.get? j := by
          intro j hji
          exact List.get?_set_ne sE _ (fun hh => hji hh.symm)
        have hAi : σA.steps.get? i = some sE := list_get?_set_self _ i sE hilen
        have hskelA : σA.steps.map skel = σ.steps.map skel := by
          refine list_map_set_invariant skel σ.steps i s sE hg ?_
          rw [hsE]; rfl
        have hlenA : σA.steps.length = σ.steps.length := by
          simp [hσA, setStep]
        refine ⟨h1.trans hlenA, h2.trans hskelA, ?_, ?_, ?_, h6, h7, h8, ?_⟩
        · intro j hj
          have hji : j ≠ i := fun hh => hj (by simp [hh])
          have := h3 j (fun hm => hj (by simpa using Or.inr hm))
          rw [this]
          exact hAg j hji
        · intro j s' hj hp
          have := h4 j s' hj hp
          by_cases hji : j = i
          · subst hji
            rw [hAi] at this
            injection this with this
            rw [← this] at hp
            exact absurd hp (by rw [hsE]; intro hh; exact TaskStatus.noConfusion hh)
          · rw [hAg j hji] at this
            exact this
        · intro id hid
          rcases h5 id hid with hold | hex
          · exact Or.inl hold
          · exact Or.inr hex
        · intro p hp s0 hs0
          rcases List.mem_cons.mp hp with hpi | hpr
          · have hp1 : p.1 = i := by rw [hpi]
            rw [hp1]
            refine ⟨sE, ?_, Or.inr (by rw [hsE])⟩
            have := h3 i hir
            rw [this]
            exact hAi
          · by_cases hpi : p.1 = i
            · rw [hpi]
              refine ⟨sE, ?_, Or.inr (by rw [hsE])⟩
              have := h3 i hir
              rw [this]
              exact hAi
            · have : σA.steps.get? p.1 = some s0 := by
                rw [hAg p.1 hpi]; exact hs0
              exact h9 p hpr s0 this
      | ok v =>
        set sC : WorkflowStep V := { s with status := .completed, result := some v } with hsC
        set σB : ExecState V :=
          { σ with
              steps := σ.steps.set i sC,
              results := dictUpdate σ.results s.step_id v,
              completed := setInsert σ.completed s.step_id } with hσB
        have heq : assignPhase σ ((i, Except.ok v) :: rest) = assignPhase σB rest := by
          simp only [assignPhase, hg, hσB, hsC]
        rw [heq]
        obtain ⟨h1, h2, h3, h4, h5, h6, h7, h8, h9⟩ := ih σB hndr
        have hBg : ∀ j, j ≠ i → σB.steps.get? j = σ.steps.get? j := by
          intro j hji
          exact List.get?_set_ne sC _ (fun hh => hji hh.symm)
        have hBi : σB.steps.get? i = some sC := list_get?_set_self _ i sC hilen
        have hskelB : σB.steps.map skel = σ.steps.map skel := by
          refine list_map_set_invariant skel σ.steps i s sC hg ?_
          rw [hsC]; rfl
        have hlenB : σB.steps.length = σ.steps.length := List.length_set σ.steps i sC
        refine ⟨h1.trans hlenB, h2.trans hskelB, ?_, ?_, ?_, ?_, h7, ?_, ?_⟩
        · intro j hj
          have hji : j ≠ i := fun hh => hj (by simp [hh])
          have := h3 j (fun hm => hj (by simpa using Or.inr hm))
          rw [this]
          exact hBg j hji
        · intro j s' hj hp
          have := h4 j s' hj hp
          by_cases hji : j = i
          · subst hji
            rw [hBi] at this
            injection this with this
            rw [← this] at hp
            exact absurd hp (by rw [hsC]; intro hh; exact TaskStatus.noConfusion hh)
          · rw [hBg j hji] at this
            exact this
        · intro id hid
          rcases h5 id hid with hold | hex
          · rcases (mem_setInsert σ.completed s.step_id id).mp hold with ho | rfl
            · exact Or.inl ho
            · refine Or.inr ⟨i, sC, ?_, by rw [hsC], by rw [hsC]⟩
              have := h3 i hir
              rw [this]
              exact hBi
          · exact Or.inr hex
        · intro hcn
          exact h6 (setInsert_nodup σ.completed s.step_id hcn)
        · intro id hid
          exact h8 id (setInsert_mem_of_mem σ.completed s.step_id id hid)
        · intro p hp s0 hs0
          rcases List.mem_cons.mp hp with hpi | hpr
          · have hp1 : p.1 = i := by rw [hpi]
            rw [hp1]
            refine ⟨sC, ?_, Or.inl (by rw [hsC])⟩
            have := h3 i hir
            rw [this]
            exact hBi
          · by_cases hpi : p.1 = i
            · rw [hpi]
              refine ⟨sC, ?_, Or.inl (by rw [hsC])⟩
              have := h3 i hir
              rw [this]
              exact hBi
            · have : σB.steps.get? p.1 = some s0 := by
                rw [hBg p.1 hpi]; exact hs0
              exact h9 p hpr s0 this

theorem assignPhase_ok {V : Type} :
    ∀ (pairs : List (Nat × Except String V)) (σ : ExecState V),
      (pairs.map Prod.fst).Nodup →
      (∀ p ∈ pairs, ∃ s v, σ.steps.get? p.1 = some s ∧ p.2 = Except.ok v ∧
        s.step_id ∉ σ.completed ∧
        ∀ q ∈ pairs, ∀ t, σ.steps.get? q.1 = some t →
          t.step_id = s.step_id → q.1 = p.1) →
      (∀ p ∈ pairs, ∃ s v, σ.steps.get? p.1 = some s ∧
        (assignPhase σ pairs).steps.get? p.1 =
          some { s with status := TaskStatus.completed, result := some v }) ∧
      (assignPhase σ pairs).completed.length = σ.completed.length + pairs.length ∧
      (∀ id, id ∈ (assignPhase σ pairs).completed ↔ id ∈ σ.completed ∨
        ∃ p ∈ pairs, ∃ s, σ.steps.get? p.1 = some s ∧ s.step_id = id) ∧
      (σ.results.map Prod.fst = σ.completed →
        (assignPhase σ pairs).results.map Prod.fst = (assignPhase σ pairs).completed) := by
  intro pairs
  induction pairs with
  | nil =>
    intro σ _ _
    refine ⟨fun p hp => absurd hp (List.not_mem_nil p), by simp [assignPhase], ?_, fun h => h⟩
    intro id
    simp [assignPhase]
  | cons pr rest ih =>
    intro σ hnd H
    obtain ⟨i, out⟩ := pr
    have hndr : (rest.map Prod.fst).Nodup := (List.nodup_cons.mp (by simpa using hnd)).2
    have hir : i ∉ rest.map Prod.fst := (List.nodup_cons.mp (by simpa using hnd)).1
    obtain ⟨s, v, hg, hok, hfresh, huniq⟩ := H (i, out) (List.mem_cons_self _ _)
    simp only at hg hok hfresh huniq
    subst hok
    have hilen : i < σ.steps.length := by
      rcases List.get?_eq_some.mp hg with ⟨h, _⟩
      exact h
    set sC : WorkflowStep V := { s with status := .completed, result := some v } with hsC
    set σB : ExecState V :=
      { σ with
          steps := σ.steps.set i sC,
          results := dictUpdate σ.results s.step_id v,
          completed := setInsert σ.completed s.step_id } with hσB
    have heq : assignPhase σ ((i, Except.ok v) :: rest) = assignPhase σB rest := by
      simp only [assignPhase, hg, hσB, hsC]
    have hBg : ∀ j, j ≠ i → σB.steps.get? j = σ.steps.get? j := by
      intro j hji
      exact List.get?_set_ne sC _ (fun hh => hji hh.symm)
    have hBi : σB.steps.get? i = some sC := list_get?_set_self _ i sC hilen
    have hrest_ne : ∀ q ∈ rest, q.1 ≠ i := by
      intro q hq hqi
      exact hir (hqi ▸ List.mem_map_of_mem Prod.fst hq)
    have Hrest : ∀ p ∈ rest, ∃ s2 v2, σB.steps.get? p.1 = some s2 ∧ p.2 = Except.ok v2 ∧
        s2.step_id ∉ σB.completed ∧
        ∀ q ∈ rest, ∀ t, σB.steps.get? q.1 = some t → t.step_id = s2.step_id → q.1 = p.1 := by
      intro p hp
      obtain ⟨s2, v2, hg2, hok2, hfresh2, huniq2⟩ := H p (List.mem_cons_of_mem _ hp)
      refine ⟨s2, v2, ?_, hok2, ?_, ?_⟩
      · rw [hBg p.1 (hrest_ne p hp)]; exact hg2
      · intro hmem
        rcases (mem_setInsert σ.completed s.step_id s2.step_id).mp hmem with ho | hs2s
        · exact hfresh2 ho
        · have : p.1 = i := huniq p (List.mem_cons_of_mem _ hp) s2 hg2 hs2s
          exact hrest_ne p hp this
      · intro q hq t hgt hts2
        have hgtσ : σ.steps.get? q.1 = some t := by
          rw [← hBg q.1 (hrest_ne q hq)]; exact hgt
        exact huniq2 q (List.mem_cons_of_mem _ hq) t hgtσ hts2
    obtain ⟨iha, ihb, ihc, ihd⟩ := ih σB hndr Hrest
    have hfinal_i : (assignPhase σB rest).steps.get? i = some sC := by
      have := (assignPhase_spec rest σB hndr).2.2.1 i hir
      rw [this]
      exact hBi
    refine ?_
    rw [heq]
    refine ⟨?_, ?_, ?_, ?_⟩
    · intro p hp
      rcases List.mem_cons.mp hp with hpi | hpr
      · have hp1 : p.1 = i := by rw [hpi]
        rw [hp1]
        exact ⟨s, v, hg, hfinal_i⟩
      · obtain ⟨s2, v2, hg2, hres2⟩ := iha p hpr
        refine ⟨s2, v2, ?_, hres2⟩
        rw [← hBg p.1 (hrest_ne p hpr)]
        exact hg2
    · rw [ihb]
      have : σB.completed.length = σ.completed.length + 1 := by
        rw [hσB]
        simp only
        rw [setInsert_fresh σ.completed s.step_id hfresh]
        simp
      rw [this]
      simp [Nat.add_assoc, Nat.add_comm 1 rest.length]
    · intro id
      rw [ihc id]
      constructor
      · rintro (hB | ⟨p, hp, s2, hg2, hid2⟩)
        · rcases (mem_setInsert σ.completed s.step_id id).mp hB with ho | rfl
          · exact Or.inl ho
          · exact Or.inr ⟨(i, Except.ok v), List.mem_cons_self _ _, s, hg, rfl⟩
        · refine Or.inr ⟨p, List.mem_cons_of_mem _ hp, s2, ?_, hid2⟩
          rw [← hBg p.1 (hrest_ne p hp)]
          exact hg2
      · rintro (ho | ⟨p, hp, s2, hg2, hid2⟩)
        · exact Or.inl (setInsert_mem_of_mem _ _ _ ho)
        · rcases List.mem_cons.mp hp with hpi | hpr
          · have hp1 : p.1 = i := by rw [hpi]
            rw [hp1] at hg2
            rw [hg] at hg2
            injection hg2 with hg2
            subst hg2
            exact Or.inl ((mem_setInsert σ.completed s.step_id id).mpr (Or.inr hid2.symm))
          · refine Or.inr ⟨p, hpr, s2, ?_, hid2⟩
            rw [hBg p.1 (hrest_ne p hpr)]
            exact hg2
    · intro hkeys
      refine ihd ?_
      rw [hσB]
      simp only
      have hfreshres : s.step_id ∉ σ.results.map Prod.fst := by
        rw [hkeys]; exact hfresh
      rw [dictUpdate_fresh σ.results s.step_id v hfreshres,
        setInsert_fresh σ.completed s.step_id hfresh]
      rw [List.map_append, hkeys]
      rfl

/-! ## Round-level lemmas -/

theorem mem_readyIdx {V : Type} (σ : ExecState V) (i : Nat) :
    i ∈ readyIdx σ ↔
      ∃ s, σ.steps.get? i = some s ∧ isReadyStep σ.completed s = true := by
  constructor
  · intro h
    rw [readyIdx, List.mem_filter] at h
    obtain ⟨_, hp⟩ := h
    cases hgg : σ.steps.get? i with
    | none => rw [hgg] at hp; exact absurd hp (by simp)
    | some s =>
      rw [hgg] at hp
      exact ⟨s, rfl, hp⟩
  · rintro ⟨s, hg, hr⟩
    rw [readyIdx, List.mem_filter]
    have hilen : i < σ.steps.length := by
      rcases List.get?_eq_some.mp hg with ⟨h, _⟩
      exact h
    refine ⟨List.mem_range.mpr hilen, ?_⟩
    rw [hg]
    exact hr

theorem readyIdx_nodup {V : Type} (σ : ExecState V) : (readyIdx σ).Nodup :=
  List.Nodup.filter _ (List.nodup_range _)

theorem readyIdx_lt_length {V : Type} (σ : ExecState V) (i : Nat)
    (h : i ∈ readyIdx σ) : i < σ.steps.length := by
  rw [readyIdx, List.mem_filter] at h
  exact List.mem_range.mp h.1

theorem isReadyStep_pending {V : Type} (completed : List String)
    (s : WorkflowStep V) (h : isReadyStep completed s = true) :
    s.status = TaskStatus.pending := by
  rw [isReadyStep, Bool.and_eq_true] at h
  have := h.1
  simpa using this

theorem map_skel_mem {V : Type} {l1 l2 : List (WorkflowStep V)}
    (h : l1.map skel = l2.map skel) (s : WorkflowStep V) (hs : s ∈ l1) :
    ∃ t ∈ l2, skel t = skel s := by
  have : skel s ∈ l2.map skel := by
    rw [← h]
    exact List.mem_map_of_mem skel hs
  rcases List.mem_map.mp this with ⟨t, ht, hts⟩
  exact ⟨t, ht, hts⟩

theorem stepIds_of_skel {V : Type} {l1 l2 : List (WorkflowStep V)}
    (h : l1.map skel = l2.map skel) : stepIds l1 = stepIds l2 := by
  have h1 : stepIds l1 = (l1.map skel).map StepSkel.sid := by
    rw [stepIds, List.map_map]; rfl
  have h2 : stepIds l2 = (l2.map skel).map StepSkel.sid := by
    rw [stepIds, List.map_map]; rfl
  rw [h1, h2, h]

theorem agentsPresent_of_skel {V : Type} (agents : AgentTable V)
    {l1 l2 : List (WorkflowStep V)} (h : l1.map skel = l2.map skel)
    (hag : AgentsPresent agents l2) : AgentsPresent agents l1 := by
  intro s hs
  obtain ⟨t, ht, hts⟩ := map_skel_mem h s hs
  have : t.agent_name = s.agent_name := congrArg StepSkel.agent hts
  rw [← this]
  exact hag t ht

theorem roundNext_skel {V : Type} (truthy : V → Bool) (agents : AgentTable V)
    (σ : ExecState V) :
    (roundNext truthy agents σ).steps.map skel = σ.steps.map skel := by
  rw [roundNext]
  have hnd : (((readyIdx σ).zip
      (launchPhase truthy agents σ (readyIdx σ)).2).map Prod.fst).Nodup :=
    List.Sublist.nodup (zip_fst_sublist _ _) (readyIdx_nodup σ)
  have h1 := (assignPhase_spec ((readyIdx σ).zip (launchPhase truthy agents σ (readyIdx σ)).2) (launchPhase truthy agents σ (readyIdx σ)).1 hnd).2.1
  have h2 := (launchPhase_spec truthy agents (readyIdx σ) σ).2.2.1
  exact h1.trans h2

theorem roundNext_length {V : Type} (truthy : V → Bool) (agents : AgentTable V)
    (σ : ExecState V) :
    (roundNext truthy agents σ).steps.length = σ.steps.length := by
  have := congrArg List.length (roundNext_skel truthy agents σ)
  simpa using this

theorem roundNext_untouched {V : Type} (truthy : V → Bool) (agents : AgentTable V)
    (σ : ExecState V) (i : Nat) (h : i ∉ readyIdx σ) :
    (roundNext truthy agents σ).steps.get? i = σ.steps.get? i := by
  rw [roundNext]
  have hnd : (((readyIdx σ).zip
      (launchPhase truthy agents σ (readyIdx σ)).2).map Prod.fst).Nodup :=
    List.Sublist.nodup (zip_fst_sublist _ _) (readyIdx_nodup σ)
  have hsub : i ∉ ((readyIdx σ).zip
      (launchPhase truthy agents σ (readyIdx σ)).2).map Prod.fst := by
    intro hm
    exact h (List.Sublist.subset (zip_fst_sublist _ _) hm)
  have h1 := (assignPhase_spec ((readyIdx σ).zip (launchPhase truthy agents σ (readyIdx σ)).2) (launchPhase truthy agents σ (readyIdx σ)).1 hnd).2.2.1 i hsub
  have h2 := (launchPhase_spec truthy agents (readyIdx σ) σ).2.2.2 i h
  exact h1.trans h2

theorem roundNext_pending_stable {V : Type} (truthy : V → Bool)
    (agents : AgentTable V) (σ : ExecState V) (j : Nat) (s' : WorkflowStep V)
    (hj : (roundNext truthy agents σ).steps.get? j = some s')
    (hp : s'.status = TaskStatus.pending) : σ.steps.get? j = some s' := by
  rw [roundNext] at hj
  have hnd : (((readyIdx σ).zip
      (launchPhase truthy agents σ (readyIdx σ)).2).map Prod.fst).Nodup :=
    List.Sublist.nodup (zip_fst_sublist _ _) (readyIdx_nodup σ)
  have hL := (assignPhase_spec ((readyIdx σ).zip (launchPhase truthy agents σ (readyIdx σ)).2) (launchPhase truthy agents σ (readyIdx σ)).1 hnd).2.2.2.1 j s' hj hp
  by_cases hjr : j ∈ readyIdx σ
  · have := launchPhase_status truthy agents (readyIdx σ) σ (readyIdx_nodup σ) j hjr s' hL
    rcases this with h1 | h1
    · rw [h1] at hp; exact absurd hp (by intro hh; exact TaskStatus.noConfusion hh)
    · rw [h1] at hp; exact absurd hp (by intro hh; exact TaskStatus.noConfusion hh)
  · have := (launchPhase_spec truthy agents (readyIdx σ) σ).2.2.2 j hjr
    rw [← this]
    exact hL

theorem roundNext_completed_mono {V : Type} (truthy : V → Bool)
    (agents : AgentTable V) (σ : ExecState V) (id : String)
    (h : id ∈ σ.completed) : id ∈ (roundNext truthy agents σ).completed := by
  rw [roundNext]
  have hnd : (((readyIdx σ).zip
      (launchPhase truthy agents σ (readyIdx σ)).2).map Prod.fst).Nodup :=
    List.Sublist.nodup (zip_fst_sublist _ _) (readyIdx_nodup σ)
  refine (assignPhase_spec ((readyIdx σ).zip (launchPhase truthy agents σ (readyIdx σ)).2) (launchPhase truthy agents σ (readyIdx σ)).1 hnd).2.2.2.2.2.2.2.1 id ?_
  rw [(launchPhase_spec truthy agents (readyIdx σ) σ).2.1]
  exact h

theorem roundNext_InvG {V : Type} (truthy : V → Bool) (agents : AgentTable V)
    (σ : ExecState V) (h : InvG σ) : InvG (roundNext truthy agents σ) := by
  obtain ⟨hnodup, hcomp⟩ := h
  have hnd : (((readyIdx σ).zip
      (launchPhase truthy agents σ (readyIdx σ)).2).map Prod.fst).Nodup :=
    List.Sublist.nodup (zip_fst_sublist _ _) (readyIdx_nodup σ)
  have hspec := assignPhase_spec ((readyIdx σ).zip
      (launchPhase truthy agents σ (readyIdx σ)).2)
      (launchPhase truthy agents σ (readyIdx σ)).1 hnd
  have hLcomp := (launchPhase_spec truthy agents (readyIdx σ) σ).2.1
  constructor
  · rw [roundNext]
    refine hspec.2.2.2.2.2.1 ?_
    rw [hLcomp]
    exact hnodup
  · intro id hid
    rw [roundNext] at hid
    rcases hspec.2.2.2.2.1 id hid with hold | ⟨j, s', hj, hid', hst⟩
    · rw [hLcomp] at hold
      obtain ⟨t, ht, htid, htc⟩ := hcomp id hold
      obtain ⟨j, hj⟩ := List.mem_iff_get?.mp ht
      have hjr : j ∉ readyIdx σ := by
        intro hm
        rcases (mem_readyIdx σ j).mp hm with ⟨s2, hg2, hr2⟩
        rw [hj] at hg2
        injection hg2 with hg2
        rw [← hg2] at hr2
        have := isReadyStep_pending _ _ hr2
        rw [htc] at this
        exact TaskStatus.noConfusion this
      have := roundNext_untouched truthy agents σ j hjr
      refine ⟨t, ?_, htid, htc⟩
      rw [← this] at hj
      exact List.get?_mem hj
    · refine ⟨s', ?_, hid', hst⟩
      rw [roundNext]
      exact List.get?_mem hj

theorem beq_pending_iff {V : Type} (s : WorkflowStep V) :
    (s.status == TaskStatus.pending) = true ↔ s.status = TaskStatus.pending := by
  constructor
  · intro h; exact eq_of_beq h
  · intro h; rw [h]; rfl

theorem roundNext_pendingCount_lt {V : Type} (truthy : V → Bool)
    (agents : AgentTable V) (σ : ExecState V) (h : readyIdx σ ≠ []) :
    pendingCount (roundNext truthy agents σ) < pendingCount σ := by
  obtain ⟨i0, hi0⟩ : ∃ i0, i0 ∈ readyIdx σ := List.exists_mem_of_ne_nil _ h
  obtain ⟨s0, hg0, hr0⟩ := (mem_readyIdx σ i0).mp hi0
  have hp0 : s0.status = TaskStatus.pending := isReadyStep_pending _ _ hr0
  have hlen : σ.steps.length = (roundNext truthy agents σ).steps.length :=
    (roundNext_length truthy agents σ).symm
  have hi0len : i0 < (roundNext truthy agents σ).steps.length := by
    rw [← hlen]
    exact readyIdx_lt_length σ i0 hi0
  obtain ⟨s'', hg''⟩ : ∃ s'', (roundNext truthy agents σ).steps.get? i0 = some s'' := by
    cases hg : (roundNext truthy agents σ).steps.get? i0 with
    | none =>
      have := List.get?_eq_none.mp hg
      omega
    | some x => exact ⟨x, rfl⟩
  have hs''np : (s''.status == TaskStatus.pending) = false := by
    by_contra hc
    have hc' : (s''.status == TaskStatus.pending) = true := by
      cases hcc : s''.status == TaskStatus.pending with
      | false => exact absurd hcc hc
      | true => rfl
    have hps'' : s''.status = TaskStatus.pending := (beq_pending_iff s'').mp hc'
    have hback := roundNext_pending_stable truthy agents σ i0 s'' hg'' hps''
    rw [roundNext] at hg''
    have hnd : (((readyIdx σ).zip
        (launchPhase truthy agents σ (readyIdx σ)).2).map Prod.fst).Nodup :=
      List.Sublist.nodup (zip_fst_sublist _ _) (readyIdx_nodup σ)
    have hL := (assignPhase_spec ((readyIdx σ).zip (launchPhase truthy agents σ (readyIdx σ)).2) (launchPhase truthy agents σ (readyIdx σ)).1 hnd).2.2.2.1 i0 s'' hg'' hps''
    have := launchPhase_status truthy agents (readyIdx σ) σ (readyIdx_nodup σ) i0 hi0 s'' hL
    rcases this with h1 | h1
    · rw [h1] at hps''; exact TaskStatus.noConfusion hps''
    · rw [h1] at hps''; exact TaskStatus.noConfusion hps''
  refine countP_lt_pointwise (fun s => s.status == TaskStatus.pending)
    σ.steps (roundNext truthy agents σ).steps i0 (by rw [hlen]) ?_ s0 s'' hg0 ?_ hg'' hs''np
  · intro i a' hget hpa'
    exact roundNext_pending_stable truthy agents σ i a' hget ((beq_pending_iff a').mp hpa')
  · exact (beq_pending_iff s0).mpr hp0

theorem roundNext_healthy {V : Type} (truthy : V → Bool) (agents : AgentTable V)
    (σ : ExecState V) (hh : Healthy σ) (hag : AgentsPresent agents σ.steps) :
    Healthy (roundNext truthy agents σ) := by
  intro s' hs'
  obtain ⟨j, hj⟩ := List.mem_iff_get?.mp hs'
  by_cases hjr : j ∈ readyIdx σ
  · have houts : (launchPhase truthy agents σ (readyIdx σ)).2.length =
        (readyIdx σ).length := by
      refine launchPhase_outs_length truthy agents (readyIdx σ) σ ?_
      intro i hi
      obtain ⟨s, hg, _⟩ := (mem_readyIdx σ i).mp hi
      exact ⟨s, hg, hag s (List.get?_mem hg)⟩
    have hcover : ((readyIdx σ).zip
        (launchPhase truthy agents σ (readyIdx σ)).2).map Prod.fst = readyIdx σ :=
      List.map_fst_zip _ _ (le_of_eq houts.symm)
    have hnd : (((readyIdx σ).zip
        (launchPhase truthy agents σ (readyIdx σ)).2).map Prod.fst).Nodup :=
      List.Sublist.nodup (zip_fst_sublist _ _) (readyIdx_nodup σ)
    have hjp : j ∈ ((readyIdx σ).zip
        (launchPhase truthy agents σ (readyIdx σ)).2).map Prod.fst := by
      rw [hcover]; exact hjr
    obtain ⟨p, hp, hp1⟩ := List.mem_map.mp hjp
    obtain ⟨sL, hsL⟩ : ∃ sL,
        (launchPhase truthy agents σ (readyIdx σ)).1.steps.get? j = some sL := by
      have hjlen : j < (launchPhase truthy agents σ (readyIdx σ)).1.steps.length := by
        rw [launchPhase_steps_length]
        exact readyIdx_lt_length σ j hjr
      cases hg : (launchPhase truthy agents σ (readyIdx σ)).1.steps.get? j with
      | none =>
        have := List.get?_eq_none.mp hg
        omega
      | some x => exact ⟨x, rfl⟩
    have h9 := (assignPhase_spec ((readyIdx σ).zip (launchPhase truthy agents σ (readyIdx σ)).2) (launchPhase truthy agents σ (readyIdx σ)).1 hnd).2.2.2.2.2.2.2.2 p hp sL (by rw [hp1]; exact hsL)
    obtain ⟨s2, hg2, hst2⟩ := h9
    rw [hp1] at hg2
    rw [roundNext] at hj
    rw [hj] at hg2
    injection hg2 with hg2
    rcases hst2 with h1 | h1
    · right; left; rw [hg2]; exact h1
    · right; right; rw [hg2]; exact h1
  · have := roundNext_untouched truthy agents σ j hjr
    rw [this] at hj
    exact hh s' (List.get?_mem hj)

/-! ## Loop-level lemmas -/

theorem execLoop_step_eq {V : Type} (truthy : V → Bool) (agents : AgentTable V)
    (fuel : Nat) (σ : ExecState V) (hc : σ.completed.length < σ.steps.length)
    (hne : (readyIdx σ).isEmpty = false) :
    execLoop truthy agents (fuel + 1) σ =
      execLoop truthy agents fuel (roundNext truthy agents σ) := by
  simp [execLoop, hc, hne]

theorem execLoop_stall_eq {V : Type} (truthy : V → Bool) (agents : AgentTable V)
    (fuel : Nat) (σ : ExecState V) (hc : σ.completed.length < σ.steps.length)
    (he : (readyIdx σ).isEmpty = true) (hp : anyPending σ = true) :
    execLoop truthy agents (fuel + 1) σ = (σ, some stallMsg) := by
  simp [execLoop, hc, he, hp]

theorem execLoop_break_eq {V : Type} (truthy : V → Bool) (agents : AgentTable V)
    (fuel : Nat) (σ : ExecState V) (hc : σ.completed.length < σ.steps.length)
    (he : (readyIdx σ).isEmpty = true) (hp : anyPending σ = false) :
    execLoop truthy agents (fuel + 1) σ = (σ, none) := by
  simp [execLoop, hc, he, hp]

theorem execLoop_done_eq {V : Type} (truthy : V → Bool) (agents : AgentTable V)
    (fuel : Nat) (σ : ExecState V) (hc : ¬ σ.completed.length < σ.steps.length) :
    execLoop truthy agents (fuel + 1) σ = (σ, none) := by
  simp [execLoop, hc]

theorem nodup_map_mem_inj {α β : Type} (f : α → β) (l : List α)
    (hn : (l.map f).Nodup) (a b : α) (ha : a ∈ l) (hb : b ∈ l)
    (hf : f a = f b) : a = b := by
  obtain ⟨i, hi⟩ := List.mem_iff_get?.mp ha
  obtain ⟨j, hj⟩ := List.mem_iff_get?.mp hb
  have hij : i = j := nodup_map_get?_inj f l hn i j a b hi hj hf
  rw [hij] at hi
  rw [hi] at hj
  injection hj

theorem anyPending_iff {V : Type} (σ : ExecState V) :
    anyPending σ = true ↔ ∃ s ∈ σ.steps, s.status = TaskStatus.pending := by
  rw [anyPending, List.any_eq_true]
  constructor
  · rintro ⟨s, hs, hp⟩
    exact ⟨s, hs, (beq_pending_iff s).mp hp⟩
  · rintro ⟨s, hs, hp⟩
    exact ⟨s, hs, (beq_pending_iff s).mpr hp⟩

theorem anyPending_false {V : Type} (σ : ExecState V) (h : anyPending σ = false) :
    ∀ s ∈ σ.steps, s.status ≠ TaskStatus.pending := by
  intro s hs hp
  have : anyPending σ = true := (anyPending_iff σ).mpr ⟨s, hs, hp⟩
  rw [this] at h
  exact Bool.noConfusion h

theorem pendingCount_pos {V : Type} (σ : ExecState V) (h : anyPending σ = true) :
    0 < pendingCount σ := by
  rw [pendingCount, List.countP_pos]
  obtain ⟨s, hs, hp⟩ := (anyPending_iff σ).mp h
  exact ⟨s, hs, (beq_pending_iff s).mpr hp⟩

theorem completed_subset_stepIds {V : Type} (σ : ExecState V) (h : InvG σ) :
    σ.completed ⊆ stepIds σ.steps := by
  intro id hid
  obtain ⟨s, hs, hsid, _⟩ := h.2 id hid
  rw [← hsid]
  exact List.mem_map_of_mem _ hs

theorem stallCond {V : Type} (σ : ExecState V) (hg : InvG σ)
    (hnd : (stepIds σ.steps).Nodup) (hp : anyPending σ = true) :
    σ.completed.length < σ.steps.length := by
  obtain ⟨s, hs, hsp⟩ := (anyPending_iff σ).mp hp
  have hsub := completed_subset_stepIds σ hg
  have hsp2 := List.Nodup.subperm hg.1 hsub
  have hle : σ.completed.length ≤ σ.steps.length := by
    have := List.Subperm.length_le hsp2
    rw [stepIds, List.length_map] at this
    exact this
  rcases Nat.lt_or_ge σ.completed.length σ.steps.length with hlt | hge
  · exact hlt
  · exfalso
    have hperm : σ.completed.Perm (stepIds σ.steps) := by
      refine List.Subperm.perm_of_length_le hsp2 ?_
      rw [stepIds, List.length_map]
      exact hge
    have hmem : s.step_id ∈ σ.completed := by
      rw [List.Perm.mem_iff hperm]
      exact List.mem_map_of_mem _ hs
    obtain ⟨t, ht, htid, htc⟩ := hg.2 s.step_id hmem
    have : t = s := nodup_map_mem_inj _ σ.steps hnd t s ht hs htid
    rw [this] at htc
    rw [hsp] at htc
    exact TaskStatus.noConfusion htc

theorem reaches_skel {V : Type} (truthy : V → Bool) (agents : AgentTable V)
    (σ σF : ExecState V) (h : LoopReaches truthy agents σ σF) :
    σF.steps.map skel = σ.steps.map skel := by
  induction h with
  | refl σ => rfl
  | step σ σ2 hc hne hr ih => exact ih.trans (roundNext_skel truthy agents σ)

theorem reaches_InvG {V : Type} (truthy : V → Bool) (agents : AgentTable V)
    (σ σF : ExecState V) (h : LoopReaches truthy agents σ σF) (hg : InvG σ) :
    InvG σF := by
  induction h with
  | refl σ => exact hg
  | step σ σ2 hc hne hr ih => exact ih (roundNext_InvG truthy agents σ hg)

theorem reaches_healthy {V : Type} (truthy : V → Bool) (agents : AgentTable V)
    (σ σF : ExecState V) (h : LoopReaches truthy agents σ σF) (hh : Healthy σ)
    (hag : AgentsPresent agents σ.steps) : Healthy σF := by
  induction h with
  | refl σ => exact hh
  | step σ σ2 hc hne hr ih =>
    refine ih (roundNext_healthy truthy agents σ hh hag) ?_
    exact agentsPresent_of_skel agents (roundNext_skel truthy agents σ) hag

theorem persist_nonpending {V : Type} (truthy : V → Bool) (agents : AgentTable V)
    (σ σF : ExecState V) (h : LoopReaches truthy agents σ σF) :
    ∀ i s, σ.steps.get? i = some s → s.status ≠ TaskStatus.pending →
      σF.steps.get? i = some s := by
  induction h with
  | refl σ => intro i s hg _; exact hg
  | step σ σ2 hc hne hr ih =>
    intro i s hg hnp
    have hni : i ∉ readyIdx σ := by
      intro hm
      obtain ⟨s2, hg2, hr2⟩ := (mem_readyIdx σ i).mp hm
      rw [hg] at hg2
      injection hg2 with hg2
      rw [← hg2] at hr2
      exact hnp (isReadyStep_pending _ _ hr2)
    refine ih i s ?_ hnp
    rw [roundNext_untouched truthy agents σ i hni]
    exact hg

theorem execLoop_stall {V : Type} (truthy : V → Bool) (agents : AgentTable V)
    (σ0 σ : ExecState V) (h : LoopReaches truthy agents σ0 σ) :
    InvG σ0 → (stepIds σ0.steps).Nodup →
    ∀ fuel, pendingCount σ0 < fuel →
    (readyIdx σ).isEmpty = true → anyPending σ = true →
    execLoop truthy agents fuel σ0 = (σ, some stallMsg) := by
  induction h with
  | refl σ =>
    intro hg hnd fuel hfuel he hp
    cases fuel with
    | zero => omega
    | succ n =>
      exact execLoop_stall_eq truthy agents n σ (stallCond σ hg hnd hp) he hp
  | step σ σ2 hc hne hr ih =>
    intro hg hnd fuel hfuel he hp
    cases fuel with
    | zero => omega
    | succ n =>
      have hready : readyIdx σ ≠ [] := by
        intro hnil
        rw [hnil] at hne
        simp at hne
      rw [execLoop_step_eq truthy agents n σ hc hne]
      refine ih (roundNext_InvG truthy agents σ hg) ?_ n ?_ he hp
      · rw [stepIds_of_skel (roundNext_skel truthy agents σ)]
        exact hnd
      · have h1 := roundNext_pendingCount_lt truthy agents σ hready
        omega

theorem execLoop_none_no_pending {V : Type} (truthy : V → Bool)
    (agents : AgentTable V) :
    ∀ (fuel : Nat) (σ σF : ExecState V), InvG σ →
      execLoop truthy agents fuel σ = (σF, none) →
      ∀ s ∈ σF.steps, s.status ≠ TaskStatus.pending := by
  intro fuel
  induction fuel with
  | zero =>
    intro σ σF _ heq
    rw [execLoop] at heq
    have : (some fuelMsg : Option String) = none := congrArg Prod.snd heq
    exact absurd this (Option.noConfusion)
  | succ n ih =>
    intro σ σF hg heq
    by_cases hc : σ.completed.length < σ.steps.length
    · cases he : (readyIdx σ).isEmpty with
      | true =>
        cases hp : anyPending σ with
        | true =>
          rw [execLoop_stall_eq truthy agents n σ hc he hp] at heq
          have : (some stallMsg : Option String) = none := congrArg Prod.snd heq
          exact absurd this (Option.noConfusion)
        | false =>
          rw [execLoop_break_eq truthy agents n σ hc he hp] at heq
          have hσ : σ = σF := congrArg Prod.fst heq
          rw [← hσ]
          exact anyPending_false σ hp
      | false =>
        rw [execLoop_step_eq truthy agents n σ hc he] at heq
        exact ih (roundNext truthy agents σ) σF (roundNext_InvG truthy agents σ hg) heq
    · rw [execLoop_done_eq truthy agents n σ hc] at heq
      have hσ : σ = σF := congrArg Prod.fst heq
      subst hσ
      intro s hs hsp
      have hge : σ.steps.length ≤ σ.completed.length := Nat.le_of_not_lt hc
      have hsub := completed_subset_stepIds σ hg
      have hsp2 := List.Nodup.subperm hg.1 hsub
      have hperm : σ.completed.Perm (stepIds σ.steps) := by
        refine List.Subperm.perm_of_length_le hsp2 ?_
        rw [stepIds, List.length_map]
        exact hge
      have hndid : (stepIds σ.steps).Nodup := by
        rw [← List.Perm.nodup_iff hperm]
        exact hg.1
      have hmem : s.step_id ∈ σ.completed := by
        rw [List.Perm.mem_iff hperm]
        exact List.mem_map_of_mem _ hs
      obtain ⟨t, ht, htid, htc⟩ := hg.2 s.step_id hmem
      have : t = s := nodup_map_mem_inj _ σ.steps hndid t s ht hs htid
      rw [this] at htc
      rw [hsp] at htc
      exact TaskStatus.noConfusion htc

/-! ## Success-path round lemma and progress -/

theorem contains_of_mem (l : List String) (a : String) (h : a ∈ l) :
    l.contains a = true := by
  simpa using h

theorem roundNext_ok {V : Type} (truthy : V → Bool) (agents : AgentTable V)
    (steps0 : List (WorkflowStep V)) (σ : ExecState V) (hInv : InvC steps0 σ)
    (hInvG : InvG σ) (hnd0 : StepsNodup steps0)
    (hws : WorkersSucceed agents steps0) :
    InvC steps0 (roundNext truthy agents σ) := by
  obtain ⟨hskel, hstat, hcomp, hkeys⟩ := hInv
  have hndσ : (stepIds σ.steps).Nodup := by
    rw [stepIds_of_skel hskel]
    exact hnd0
  set ready := readyIdx σ with hready
  set L := launchPhase truthy agents σ ready with hLdef
  set pairs := ready.zip L.2 with hpairs
  have hLok : ∀ i ∈ ready, ∃ s w, σ.steps.get? i = some s ∧
      agents s.agent_name = some w ∧
      ∃ v, w (launchInput truthy σ.results s) = Except.ok v := by
    intro i hi
    obtain ⟨s, hg, _⟩ := (mem_readyIdx σ i).mp hi
    obtain ⟨s0, hs0, hsk⟩ := map_skel_mem hskel s (List.get?_mem hg)
    obtain ⟨w, hw, htot⟩ := hws s0 hs0
    have hname : s0.agent_name = s.agent_name := congrArg StepSkel.agent hsk
    rw [hname] at hw
    obtain ⟨v, hv⟩ := htot (launchInput truthy σ.results s)
    exact ⟨s, w, hg, hw, v, hv⟩
  obtain ⟨houts_ok, hip⟩ := launchPhase_ok truthy agents ready σ (readyIdx_nodup σ) hLok
  have houts_len : L.2.length = ready.length := by
    refine launchPhase_outs_length truthy agents ready σ ?_
    intro i hi
    obtain ⟨s, w, hg, hw, _⟩ := hLok i hi
    exact ⟨s, hg, by rw [hw]; rfl⟩
  have hcover : pairs.map Prod.fst = ready :=
    List.map_fst_zip _ _ (le_of_eq houts_len.symm)
  have hpnd : (pairs.map Prod.fst).Nodup := by
    rw [hcover]; exact readyIdx_nodup σ
  have hLspec := launchPhase_spec truthy agents ready σ
  have hLcompleted : L.1.completed = σ.completed := hLspec.2.1
  have hLresults : L.1.results = σ.results := hLspec.1
  have hLskel : L.1.steps.map skel = σ.steps.map skel := hLspec.2.2.1
  have hndL : (stepIds L.1.steps).Nodup := by
    rw [stepIds_of_skel hLskel]
    exact hndσ
  have H : ∀ p ∈ pairs, ∃ s v, L.1.steps.get? p.1 = some s ∧ p.2 = Except.ok v ∧
      s.step_id ∉ L.1.completed ∧
      ∀ q ∈ pairs, ∀ t, L.1.steps.get? q.1 = some t →
        t.step_id = s.step_id → q.1 = p.1 := by
    intro p hp
    have hp1 : p.1 ∈ ready := (List.of_mem_zip hp).1
    have hp2 : p.2 ∈ L.2 := (List.of_mem_zip hp).2
    obtain ⟨v, hv⟩ := houts_ok p.2 hp2
    obtain ⟨s, hg, hLa⟩ := hip p.1 hp1
    refine ⟨{ s with status := TaskStatus.in_progress }, v, hLa, hv, ?_, ?_⟩
    · intro hmem
      rw [hLcompleted] at hmem
      simp only at hmem
      obtain ⟨t, ht, htid, htc⟩ := hInvG.2 s.step_id hmem
      have : t = s := nodup_map_mem_inj _ σ.steps hndσ t s ht (List.get?_mem hg) htid
      rw [this] at htc
      obtain ⟨s2, hg2, hr2⟩ := (mem_readyIdx σ p.1).mp hp1
      rw [hg] at hg2
      injection hg2 with hg2
      rw [← hg2] at hr2
      have := isReadyStep_pending _ _ hr2
      rw [this] at htc
      exact TaskStatus.noConfusion htc
    · intro q hq t hgt htid
      exact nodup_map_get?_inj _ L.1.steps hndL q.1 p.1 t
        { s with status := TaskStatus.in_progress } hgt hLa htid
  obtain ⟨APa, APb, APc, APd⟩ := assignPhase_ok pairs L.1 hpnd H
  have hroundeq : roundNext truthy agents σ = assignPhase L.1 pairs := by
    rw [roundNext]
  refine ⟨roundNext_skel truthy agents σ ▸ hskel, ?_, ?_, ?_⟩
  · intro s' hs'
    obtain ⟨j, hj⟩ := List.mem_iff_get?.mp hs'
    by_cases hjr : j ∈ ready
    · rw [hcover.symm] at hjr
      obtain ⟨p, hp, hpj⟩ := List.mem_map.mp hjr
      obtain ⟨s, v, _, hfin⟩ := APa p hp
      rw [hpj] at hfin
      rw [hroundeq, hfin] at hj
      injection hj with hj
      right
      rw [← hj]
    · have := roundNext_untouched truthy agents σ j hjr
      rw [this] at hj
      exact hstat s' (List.get?_mem hj)
  · intro s' hs' hc'
    obtain ⟨j, hj⟩ := List.mem_iff_get?.mp hs'
    by_cases hjr : j ∈ ready
    · rw [hcover.symm] at hjr
      obtain ⟨p, hp, hpj⟩ := List.mem_map.mp hjr
      obtain ⟨s, v, hL1, hfin⟩ := APa p hp
      rw [hpj] at hfin
      rw [hroundeq, hfin] at hj
      injection hj with hj
      rw [hroundeq]
      refine (APc s'.step_id).mpr (Or.inr ⟨p, hp, s, hL1, ?_⟩)
      rw [← hj]
    · have huntouched := roundNext_untouched truthy agents σ j hjr
      rw [huntouched] at hj
      have := hcomp s' (List.get?_mem hj) hc'
      exact roundNext_completed_mono truthy agents σ s'.step_id this
  · rw [hroundeq]
    refine APd ?_
    rw [hLresults, hLcompleted]
    exact hkeys

theorem progress {V : Type} (steps0 : List (WorkflowStep V)) (rank : String → Nat)
    (σ : ExecState V) (hInv : InvC steps0 σ) (hdeps : DepsExist steps0)
    (hrank : RankedBy steps0 rank) (hp : anyPending σ = true) :
    readyIdx σ ≠ [] := by
  obtain ⟨hskel, hstat, hcomp, _⟩ := hInv
  obtain ⟨sp, hsp, hspp⟩ := (anyPending_iff σ).mp hp
  set P := σ.steps.filter (fun s => s.status == TaskStatus.pending) with hP
  have hPne : P ≠ [] := by
    refine List.ne_nil_of_mem (a := sp) ?_
    rw [hP, List.mem_filter]
    exact ⟨hsp, (beq_pending_iff sp).mpr hspp⟩
  obtain ⟨m, hmP, hmin⟩ := exists_min_by (fun s => rank s.step_id) P hPne
  have hmσ : m ∈ σ.steps := (List.mem_filter.mp hmP).1
  have hmp : m.status = TaskStatus.pending :=
    (beq_pending_iff m).mp (List.mem_filter.mp hmP).2
  obtain ⟨m0, hm0, hm0sk⟩ := map_skel_mem hskel m hmσ
  have hm0deps : m0.dependencies = m.dependencies := congrArg StepSkel.deps hm0sk
  have hm0id : m0.step_id = m.step_id := congrArg StepSkel.sid hm0sk
  have hdone : ∀ d ∈ m.dependencies, d ∈ σ.completed := by
    intro d hd
    have hd0 : d ∈ m0.dependencies := by rw [hm0deps]; exact hd
    have hdids : d ∈ stepIds steps0 := hdeps m0 hm0 d hd0
    have hdσ : d ∈ stepIds σ.steps := by
      rw [stepIds_of_skel hskel]
      exact hdids
    obtain ⟨t, ht, htd⟩ := List.mem_map.mp hdσ
    rcases hstat t ht with htp | htc
    · exfalso
      have htP : t ∈ P := by
        rw [hP, List.mem_filter]
        exact ⟨ht, (beq_pending_iff t).mpr htp⟩
      have h1 : rank m.step_id ≤ rank t.step_id := hmin t htP
      have h2 : rank d < rank m0.step_id := hrank m0 hm0 d hd0
      rw [hm0id] at h2
      rw [htd] at h1
      omega
    · have := hcomp t ht htc
      rw [htd] at this
      exact this
  have hmready : isReadyStep σ.completed m = true := by
    rw [isReadyStep, Bool.and_eq_true]
    refine ⟨(beq_pending_iff m).mpr hmp, ?_⟩
    rw [List.all_eq_true]
    intro d hd
    exact contains_of_mem _ _ (hdone d hd)
  obtain ⟨i, hi⟩ := List.mem_iff_get?.mp hmσ
  refine List.ne_nil_of_mem (a := i) ?_
  exact (mem_readyIdx σ i).mpr ⟨m, hi, hmready⟩

theorem execLoop_ok {V : Type} (truthy : V → Bool) (agents : AgentTable V)
    (steps0 : List (WorkflowStep V)) (rank : String → Nat)
    (hnd0 : StepsNodup steps0) (hdeps : DepsExist steps0)
    (hrank : RankedBy steps0 rank) (hws : WorkersSucceed agents steps0) :
    ∀ (fuel : Nat) (σ : ExecState V), InvC steps0 σ → InvG σ →
      pendingCount σ < fuel →
      ∃ σF, execLoop truthy agents fuel σ = (σF, none) ∧ InvC steps0 σF ∧
        InvG σF ∧ anyPending σF = false := by
  intro fuel
  induction fuel with
  | zero => intro σ _ _ hlt; omega
  | succ n ih =>
    intro σ hInv hInvG hlt
    have hndσ : (stepIds σ.steps).Nodup := by
      rw [stepIds_of_skel hInv.1]
      exact hnd0
    by_cases hc : σ.completed.length < σ.steps.length
    · cases he : (readyIdx σ).isEmpty with
      | true =>
        cases hp : anyPending σ with
        | true =>
          exfalso
          have := progress steps0 rank σ hInv hdeps hrank hp
          rw [List.isEmpty_iff] at he
          exact this he
        | false =>
          exact ⟨σ, execLoop_break_eq truthy agents n σ hc he hp, hInv, hInvG, hp⟩
      | false =>
        rw [execLoop_step_eq truthy agents n σ hc he]
        have hready : readyIdx σ ≠ [] := by
          intro hnil
          rw [hnil] at he
          simp at he
        refine ih (roundNext truthy agents σ)
          (roundNext_ok truthy agents steps0 σ hInv hInvG hnd0 hws)
          (roundNext_InvG truthy agents σ hInvG) ?_
        have := roundNext_pendingCount_lt truthy agents σ hready
        omega
    · have hp : anyPending σ = false := by
        cases hp : anyPending σ with
        | true => exact absurd (stallCond σ hInvG hndσ hp) hc
        | false => rfl
      exact ⟨σ, execLoop_done_eq truthy agents n σ hc, hInv, hInvG, hp⟩

/-! ## Claim C1 -/

/-- C1: for every workflow whose dependency graph is acyclic (witnessed by a
rank function) and references only existing step ids, executed against a
capability table in which every step capability is present and its worker
never raises, `execute_workflow` returns the response status `"completed"` and
the `results` map holds exactly one entry per step, keyed by `step_id`. -/
theorem c1_dag_completes {V : Type} (truthy : V → Bool) (agents : AgentTable V)
    (eng : WorkflowEngine V) (wid : String) (specs : List (StepSpec V))
    (rank : String → Nat)
    (hnd : (specs.map StepSpec.step_id).Nodup)
    (hdeps : ∀ c ∈ specs, ∀ d ∈ c.dependencies.getD [],
      d ∈ specs.map StepSpec.step_id)
    (hrank : ∀ c ∈ specs, ∀ d ∈ c.dependencies.getD [], rank d < rank c.step_id)
    (hws : ∀ c ∈ specs, ∃ w, agents c.agent_name = some w ∧
      ∀ p, ∃ v, w p = Except.ok v) :
    ∃ r : WorkflowResponse V,
      (execute_workflow truthy agents (create_workflow eng wid specs).1 wid).response
        = Except.ok r ∧
      r.status = "completed" ∧
      (r.results.map Prod.fst).Nodup ∧
      (∀ id, id ∈ r.results.map Prod.fst ↔ id ∈ specs.map StepSpec.step_id) := by
  set steps0 := specs.map mkStep with hsteps0
  have hids : stepIds steps0 = specs.map StepSpec.step_id := by
    rw [hsteps0, stepIds, List.map_map]
    rfl
  have hnd0 : StepsNodup steps0 := by
    rw [StepsNodup, hids]
    exact hnd
  have hmem0 : ∀ s ∈ steps0, ∃ c ∈ specs, s = mkStep c := by
    intro s hs
    rw [hsteps0] at hs
    rcases List.mem_map.mp hs with ⟨c, hc, hceq⟩
    exact ⟨c, hc, hceq.symm⟩
  have hdeps0 : DepsExist steps0 := by
    intro s hs d hd
    obtain ⟨c, hc, rfl⟩ := hmem0 s hs
    rw [hids]
    exact hdeps c hc d hd
  have hrank0 : RankedBy steps0 rank := by
    intro s hs d hd
    obtain ⟨c, hc, rfl⟩ := hmem0 s hs
    exact hrank c hc d hd
  have hws0 : WorkersSucceed agents steps0 := by
    intro s hs
    obtain ⟨c, hc, rfl⟩ := hmem0 s hs
    exact hws c hc
  have hpend0 : ∀ s ∈ steps0, s.status = TaskStatus.pending := by
    intro s hs
    obtain ⟨c, _, rfl⟩ := hmem0 s hs
    rfl
  have hInv0 : InvC steps0 (initState steps0) := by
    refine ⟨rfl, ?_, ?_, rfl⟩
    · intro s hs
      exact Or.inl (hpend0 s hs)
    · intro s hs hc
      have := hpend0 s hs
      rw [this] at hc
      exact absurd hc (by intro hh; exact TaskStatus.noConfusion hh)
  have hInvG0 : InvG (initState steps0) := by
    refine ⟨List.nodup_nil, ?_⟩
    intro id hid
    exact absurd hid (List.not_mem_nil id)
  have hfuel : pendingCount (initState steps0) < steps0.length + 1 := by
    have : pendingCount (initState steps0) ≤ steps0.length :=
      List.countP_le_length _
    omega
  obtain ⟨σF, hexec, hInvF, hInvGF, hAPF⟩ :=
    execLoop_ok truthy agents steps0 rank hnd0 hdeps0 hrank0 hws0
      (steps0.length + 1) (initState steps0) hInv0 hInvG0 hfuel
  have hlk : dictLookup (create_workflow eng wid specs).1.workflows wid
      = some steps0 := by
    rw [create_workflow]
    exact dictLookup_update_self eng.workflows wid steps0
  refine ⟨⟨wid, "completed", σF.results⟩, ?_, rfl, ?_, ?_⟩
  · simp only [execute_workflow, hlk, execute_steps, hexec]
  · rw [hInvF.2.2.2]
    exact hInvGF.1
  · intro id
    rw [hInvF.2.2.2]
    constructor
    · intro hid
      have h1 := completed_subset_stepIds σF hInvGF hid
      rw [stepIds_of_skel hInvF.1, hids] at h1
      exact h1
    · intro hid
      have h1 : id ∈ stepIds σF.steps := by
        rw [stepIds_of_skel hInvF.1, hids]
        exact hid
      obtain ⟨s, hsF, hsid⟩ := List.mem_map.mp h1
      rcases hInvF.2.1 s hsF with hsp | hsc
      · exact absurd hsp (anyPending_false σF hAPF s hsF)
      · rw [← hsid]
        exact hInvF.2.2.1 s hsF hsc

/-- Witness for C1 at a concrete two-step chain with succeeding workers. -/
theorem c1_dag_completes_witness :
    ∃ r : WorkflowResponse Nat,
      (execute_workflow (fun v => v != 0)
        (fun n => if n = "WA" then some (fun _ => Except.ok 3)
          else if n = "WB" then some (fun _ => Except.ok 9) else none)
        (create_workflow (emptyEngine Nat) "wf"
          [⟨"A", "WA", ⟨none, 0⟩, none⟩, ⟨"B", "WB", ⟨none, 0⟩, some ["A"]⟩]).1
        "wf").response = Except.ok r ∧
      r.status = "completed" ∧
      (r.results.map Prod.fst).Nodup ∧
      (∀ id, id ∈ r.results.map Prod.fst ↔
        id ∈ [⟨"A", "WA", ⟨none, (0:Nat)⟩, none⟩,
          ⟨"B", "WB", ⟨none, 0⟩, some ["A"]⟩].map StepSpec.step_id) := by
  refine c1_dag_completes (fun v => v != 0)
    (fun n => if n = "WA" then some (fun _ => Except.ok 3)
      else if n = "WB" then some (fun _ => Except.ok 9) else none)
    (emptyEngine Nat) "wf"
    [⟨"A", "WA", ⟨none, 0⟩, none⟩, ⟨"B", "WB", ⟨none, 0⟩, some ["A"]⟩]
    (fun id => if id = "B" then 1 else 0)
    (by decide) (by decide) (by decide) ?_
  intro c hc
  simp only [List.mem_cons, List.not_mem_nil, or_false] at hc
  rcases hc with rfl | rfl
  · exact ⟨fun _ => Except.ok 3, rfl, fun p => ⟨3, rfl⟩⟩
  · exact ⟨fun _ => Except.ok 9, rfl, fun p => ⟨9, rfl⟩⟩

/-! ## Re-execution lemma -/

theorem readyIdx_nil_of_no_pending {V : Type} (σ : ExecState V)
    (h : ∀ s ∈ σ.steps, s.status ≠ TaskStatus.pending) : readyIdx σ = [] := by
  rw [readyIdx, List.filter_eq_nil]
  intro i _
  cases hg : σ.steps.get? i with
  | none => simp
  | some s =>
    simp only
    intro hr
    exact h s (List.get?_mem hg) (isReadyStep_pending _ _ hr)

theorem execute_steps_no_pending {V : Type} (truthy : V → Bool)
    (agents : AgentTable V) (steps : List (WorkflowStep V))
    (h : ∀ s ∈ steps, s.status ≠ TaskStatus.pending) :
    execute_steps truthy agents steps = (initState steps, none) := by
  rw [execute_steps]
  by_cases hlen : 0 < steps.length
  · have hc : (initState steps).completed.length < (initState steps).steps.length := by
      simpa [initState] using hlen
    have hready : (readyIdx (initState steps)).isEmpty = true := by
      rw [List.isEmpty_iff]
      exact readyIdx_nil_of_no_pending _ (by simpa [initState] using h)
    have hap : anyPending (initState steps) = false := by
      cases hap : anyPending (initState steps) with
      | true =>
        obtain ⟨s, hs, hp⟩ := (anyPending_iff _).mp hap
        exact absurd hp (h s (by simpa [initState] using hs))
      | false => rfl
    exact execLoop_break_eq truthy agents steps.length (initState steps) hc hready hap
  · have hc : ¬ (initState steps).completed.length < (initState steps).steps.length := by
      simp only [initState]
      omega
    exact execLoop_done_eq truthy agents steps.length (initState steps) hc

/-! ## Claim C10 -/

/-- C10: re-executing a workflow id whose previous execution returned
successfully invokes no worker and returns status `"completed"` with an empty
results map — steps retain their terminal states inside `self.workflows`, so
no step is `PENDING` any more and the ready set is empty from the start. -/
theorem c10_reexecute_idempotent {V : Type} (truthy : V → Bool)
    (agents : AgentTable V) (eng : WorkflowEngine V) (wid : String)
    (r : WorkflowResponse V)
    (h : (execute_workflow truthy agents eng wid).response = Except.ok r) :
    (execute_workflow truthy agents
        (execute_workflow truthy agents eng wid).engine wid).response
      = Except.ok ⟨wid, "completed", []⟩ ∧
    (execute_workflow truthy agents
        (execute_workflow truthy agents eng wid).engine wid).trace = [] := by
  cases hlk : dictLookup eng.workflows wid with
  | none =>
    exfalso
    rw [execute_workflow] at h
    rw [hlk] at h
    exact Except.noConfusion h
  | some steps =>
    cases hexec : execute_steps truthy agents steps with
    | mk σF err =>
      cases err with
      | some e =>
        exfalso
        rw [execute_workflow] at h
        rw [hlk] at h
        simp only [hexec] at h
        exact Except.noConfusion h
      | none =>
        have hexecL : execLoop truthy agents (steps.length + 1) (initState steps)
            = (σF, none) := by
          rw [← hexec, execute_steps]
        have hInvG0 : InvG (initState steps) := by
          refine ⟨List.nodup_nil, ?_⟩
          intro id hid
          exact absurd hid (List.not_mem_nil id)
        have hnp : ∀ s ∈ σF.steps, s.status ≠ TaskStatus.pending :=
          execLoop_none_no_pending truthy agents (steps.length + 1)
            (initState steps) σF hInvG0 hexecL
        have hsecond := execute_steps_no_pending truthy agents σF.steps hnp
        set E1 : WorkflowEngine V := (execute_workflow truthy agents eng wid).engine
          with hE1
        have hlk2 : dictLookup E1.workflows wid = some σF.steps := by
          rw [hE1]
          simp only [execute_workflow, hlk, hexec]
          exact dictLookup_update_self _ _ _
        constructor
        · simp only [execute_workflow, hlk2, hsecond]
          rfl
        · simp only [execute_workflow, hlk2, hsecond]
          rfl

/-- Witness for C10: a one-step workflow with a succeeding worker is executed
twice; the second run returns completed with no results and no worker call. -/
theorem c10_reexecute_idempotent_witness :
    (execute_workflow (fun v => v != 0)
        (fun n => if n = "W" then some (fun _ => Except.ok (5:Nat)) else none)
        (execute_workflow (fun v => v != 0)
          (fun n => if n = "W" then some (fun _ => Except.ok (5:Nat)) else none)
          (create_workflow (emptyEngine Nat) "wf" [⟨"s1", "W", ⟨none, 0⟩, none⟩]).1
          "wf").engine "wf").response = Except.ok ⟨"wf", "completed", []⟩ ∧
    (execute_workflow (fun v => v != 0)
        (fun n => if n = "W" then some (fun _ => Except.ok (5:Nat)) else none)
        (execute_workflow (fun v => v != 0)
          (fun n => if n = "W" then some (fun _ => Except.ok (5:Nat)) else none)
          (create_workflow (emptyEngine Nat) "wf" [⟨"s1", "W", ⟨none, 0⟩, none⟩]).1
          "wf").engine "wf").trace = [] :=
  c10_reexecute_idempotent (fun v => v != 0)
    (fun n => if n = "W" then some (fun _ => Except.ok (5:Nat)) else none)
    (create_workflow (emptyEngine Nat) "wf" [⟨"s1", "W", ⟨none, 0⟩, none⟩]).1
    "wf" ⟨"wf", "completed", [("s1", 5)]⟩ rfl

/-! ## Claim C6 -/

/-- C6: executing an undefined workflow id raises the unknown-workflow error
before any state change (the engine is returned untouched), while
`create_workflow` never fails: it stores the step list under the id even when
the id is already defined — silently overwriting the prior definition — and
leaves every other workflow and engine field unchanged. -/
theorem c6_unknown_workflow_and_overwrite {V : Type} (truthy : V → Bool)
    (agents : AgentTable V) (eng : WorkflowEngine V) (wid : String)
    (hmiss : dictLookup eng.workflows wid = none) :
    execute_workflow truthy agents eng wid =
      ⟨eng, [], Except.error ("Workflow " ++ wid ++ " not found")⟩ ∧
    (∀ (eng2 : WorkflowEngine V) (wid2 : String) (specs2 : List (StepSpec V)),
      (create_workflow eng2 wid2 specs2).2 = wid2 ∧
      dictLookup (create_workflow eng2 wid2 specs2).1.workflows wid2
        = some (specs2.map mkStep) ∧
      (∀ wid3, wid3 ≠ wid2 →
        dictLookup (create_workflow eng2 wid2 specs2).1.workflows wid3
          = dictLookup eng2.workflows wid3) ∧
      (create_workflow eng2 wid2 specs2).1.active_workflows
        = eng2.active_workflows ∧
      (create_workflow eng2 wid2 specs2).1.workflow_history
        = eng2.workflow_history) := by
  constructor
  · simp only [execute_workflow, hmiss]
  · intro eng2 wid2 specs2
    refine ⟨rfl, ?_, ?_, rfl, rfl⟩
    · exact dictLookup_update_self eng2.workflows wid2 (specs2.map mkStep)
    · intro wid3 hne
      exact dictLookup_update_other eng2.workflows wid2 wid3 (specs2.map mkStep) hne

/-- Witness for C6 at a concrete engine already holding a workflow under
another id. -/
theorem c6_unknown_workflow_and_overwrite_witness :
    execute_workflow (fun (v : Nat) => v != 0) (fun _ => none)
      (create_workflow (emptyEngine Nat) "wf" [⟨"s1", "W", ⟨none, 0⟩, none⟩]).1
      "nope" =
      ⟨(create_workflow (emptyEngine Nat) "wf" [⟨"s1", "W", ⟨none, 0⟩, none⟩]).1,
        [], Except.error ("Workflow " ++ "nope" ++ " not found")⟩ ∧
    (∀ (eng2 : WorkflowEngine Nat) (wid2 : String) (specs2 : List (StepSpec Nat)),
      (create_workflow eng2 wid2 specs2).2 = wid2 ∧
      dictLookup (create_workflow eng2 wid2 specs2).1.workflows wid2
        = some (specs2.map mkStep) ∧
      (∀ wid3, wid3 ≠ wid2 →
        dictLookup (create_workflow eng2 wid2 specs2).1.workflows wid3
          = dictLookup eng2.workflows wid3) ∧
      (create_workflow eng2 wid2 specs2).1.active_workflows
        = eng2.active_workflows ∧
      (create_workflow eng2 wid2 specs2).1.workflow_history
        = eng2.workflow_history) :=
  c6_unknown_workflow_and_overwrite (fun (v : Nat) => v != 0) (fun _ => none)
    (create_workflow (emptyEngine Nat) "wf" [⟨"s1", "W", ⟨none, 0⟩, none⟩]).1
    "nope" rfl

/-! ## Claim C2 -/

/-- C2 counterexample: a workflow consisting of a single step whose worker
raises terminates with workflow status "completed" and an empty results map —
not Failed as the claim states — because `_execute_steps` only raises when
PENDING steps remain and the failed step is terminal, so the loop simply
breaks. -/
theorem c2_counterexample :
    (execute_workflow (fun v => v != 0)
      (fun n => if n = "W" then some (fun _ => Except.error "boom") else none)
      (create_workflow (emptyEngine Nat) "wf" [⟨"s1", "W", ⟨none, 0⟩, none⟩]).1
      "wf").response = Except.ok ⟨"wf", "completed", []⟩ ∧
    dictLookup (execute_workflow (fun v => v != 0)
      (fun n => if n = "W" then some (fun _ => Except.error "boom") else none)
      (create_workflow (emptyEngine Nat) "wf" [⟨"s1", "W", ⟨none, 0⟩, none⟩]).1
      "wf").engine.active_workflows "wf" = some ⟨"completed", none⟩ :=
  ⟨rfl, rfl⟩

/-- C2 (amended): for every workflow of a single dependency-free step whose
worker always raises, `execute_workflow` returns workflow status "completed"
with an empty results map, while the step itself ends Failed and its `error`
field is non-empty (it records the raised error text verbatim). -/
theorem c2_single_failing_step {V : Type} (truthy : V → Bool)
    (agents : AgentTable V) (eng : WorkflowEngine V) (wid : String)
    (c : StepSpec V) (w : Worker V) (e : String)
    (hdep : c.dependencies.getD [] = [])
    (ha : agents c.agent_name = some w)
    (hw : ∀ p, w p = Except.error e) :
    (execute_workflow truthy agents (create_workflow eng wid [c]).1 wid).response
      = Except.ok ⟨wid, "completed", []⟩ ∧
    dictLookup (execute_workflow truthy agents
        (create_workflow eng wid [c]).1 wid).engine.workflows wid
      = some [{ mkStep c with status := TaskStatus.failed, error := some e }] ∧
    dictLookup (execute_workflow truthy agents
        (create_workflow eng wid [c]).1 wid).engine.active_workflows wid
      = some ⟨"completed", none⟩ := by
  have hexec : execute_steps truthy agents [mkStep c] =
      (⟨[{ mkStep c with status := TaskStatus.failed, error := some e }], [], [],
        [(c.step_id, c.task)]⟩, none) := by
    simp [execute_steps, initState, execLoop, readyIdx, isReadyStep, anyPending,
      launchPhase, assignPhase, roundNext, launchInput, lastDepResult, truthyOpt,
      setStep, mkStep, hdep, ha, hw, List.range_succ]
  have hlk : dictLookup (create_workflow eng wid [c]).1.workflows wid
      = some [mkStep c] := by
    rw [create_workflow]
    exact dictLookup_update_self eng.workflows wid [mkStep c]
  refine ⟨?_, ?_, ?_⟩
  · simp only [execute_workflow, hlk, hexec]
  · simp only [execute_workflow, hlk, hexec]
    exact dictLookup_update_self _ _ _
  · simp only [execute_workflow, hlk, hexec]
    exact dictLookup_update_self _ _ _

/-- Witness for the amended C2 at a concrete failing worker. -/
theorem c2_single_failing_step_witness :
    (execute_workflow (fun (v : Nat) => v != 0)
      (fun n => if n = "W" then some (fun _ => Except.error "boom") else none)
      (create_workflow (emptyEngine Nat) "wf2" [⟨"s1", "W", ⟨none, 0⟩, none⟩]).1
      "wf2").response = Except.ok ⟨"wf2", "completed", []⟩ ∧
    dictLookup (execute_workflow (fun (v : Nat) => v != 0)
        (fun n => if n = "W" then some (fun _ => Except.error "boom") else none)
        (create_workflow (emptyEngine Nat) "wf2" [⟨"s1", "W", ⟨none, 0⟩, none⟩]).1
        "wf2").engine.workflows "wf2"
      = some [{ mkStep ⟨"s1", "W", ⟨none, (0:Nat)⟩, none⟩ with
          status := TaskStatus.failed, error := some "boom" }] ∧
    dictLookup (execute_workflow (fun (v : Nat) => v != 0)
        (fun n => if n = "W" then some (fun _ => Except.error "boom") else none)
        (create_workflow (emptyEngine Nat) "wf2" [⟨"s1", "W", ⟨none, 0⟩, none⟩]).1
        "wf2").engine.active_workflows "wf2"
      = some ⟨"completed", none⟩ :=
  c2_single_failing_step (fun (v : Nat) => v != 0)
    (fun n => if n = "W" then some (fun _ => Except.error "boom") else none)
    (emptyEngine Nat) "wf2" ⟨"s1", "W", ⟨none, 0⟩, none⟩
    (fun _ => Except.error "boom") "boom" rfl rfl (fun _ => rfl)

/-! ## Claim C3 -/

theorem temporal_block {V : Type} (truthy : V → Bool) (agents : AgentTable V)
    (σ0 σF : ExecState V) (h : LoopReaches truthy agents σ0 σF) :
    InvG σ0 → (stepIds σ0.steps).Nodup →
    ∀ iD dstep, σF.steps.get? iD = some dstep →
      dstep.status = TaskStatus.failed →
    ∀ iS s0, σ0.steps.get? iS = some s0 → s0.status = TaskStatus.pending →
      dstep.step_id ∈ s0.dependencies → σF.steps.get? iS = some s0 := by
  induction h with
  | refl σ =>
    intro _ _ iD dstep _ _ iS s0 hgS _ _
    exact hgS
  | step σ σ2 hc hne hrest ih =>
    intro hg hnd iD dstep hgD hfD iS s0 hgS hps0 hdep
    have hfull : LoopReaches truthy agents σ σ2 := LoopReaches.step σ σ2 hc hne hrest
    have hndF : (stepIds σ2.steps).Nodup := by
      rw [stepIds_of_skel (reaches_skel truthy agents σ σ2 hfull)]
      exact hnd
    have hnotready : iS ∉ readyIdx σ := by
      intro hin
      obtain ⟨s2, hg2, hr2⟩ := (mem_readyIdx σ iS).mp hin
      rw [hgS] at hg2
      injection hg2 with hg2
      subst hg2
      rw [isReadyStep, Bool.and_eq_true] at hr2
      have hall := hr2.2
      rw [List.all_eq_true] at hall
      have hcont := hall dstep.step_id hdep
      have hmem : dstep.step_id ∈ σ.completed := by simpa using hcont
      obtain ⟨t, ht, htid, htc⟩ := hg.2 dstep.step_id hmem
      obtain ⟨jT, hjT⟩ := List.mem_iff_get?.mp ht
      have hpersist := persist_nonpending truthy agents σ σ2 hfull jT t hjT
        (by rw [htc]; intro hh; exact TaskStatus.noConfusion hh)
      have hje : jT = iD := nodup_map_get?_inj _ σ2.steps hndF jT iD t dstep
        hpersist hgD htid
      rw [hje] at hpersist
      rw [hpersist] at hgD
      injection hgD with hgD
      rw [← hgD] at hfD
      rw [htc] at hfD
      exact TaskStatus.noConfusion hfD
    have hstable : (roundNext truthy agents σ).steps.get? iS = some s0 := by
      rw [roundNext_untouched truthy agents σ iS hnotready]
      exact hgS
    exact ih (roundNext_InvG truthy agents σ hg)
      (by rw [stepIds_of_skel (roundNext_skel truthy agents σ)]; exact hnd)
      iD dstep hgD hfD iS s0 hstable hps0 hdep

/-- C3: whenever the round loop reaches a state whose ready set is empty while
some step is still non-terminal (with every capability present, so the stall
is caused by a cycle, a dangling dependency name or a failed dependency),
`_execute_steps` terminates right there raising the stall exception — it does
not loop forever — `execute_workflow` records the workflow as failed with that
error, and a pending step one of whose dependencies has failed is returned
unchanged, i.e. it never transitioned out of `PENDING`. -/
theorem c3_stall_fails {V : Type} (truthy : V → Bool) (agents : AgentTable V)
    (eng : WorkflowEngine V) (wid : String) (steps : List (WorkflowStep V))
    (σ : ExecState V)
    (hwf : dictLookup eng.workflows wid = some steps)
    (hpend : AllPending steps)
    (hag : AgentsPresent agents steps)
    (hnd : StepsNodup steps)
    (hreach : LoopReaches truthy agents (initState steps) σ)
    (hready : (readyIdx σ).isEmpty = true)
    (hnt : ∃ s ∈ σ.steps, s.status ≠ TaskStatus.completed ∧
      s.status ≠ TaskStatus.failed ∧ s.status ≠ TaskStatus.cancelled) :
    execute_steps truthy agents steps = (σ, some stallMsg) ∧
    (execute_workflow truthy agents eng wid).response = Except.error stallMsg ∧
    dictLookup (execute_workflow truthy agents eng wid).engine.active_workflows
      wid = some ⟨"failed", some stallMsg⟩ ∧
    (∀ iS s0, steps.get? iS = some s0 →
      (∃ iD dstep, σ.steps.get? iD = some dstep ∧
        dstep.status = TaskStatus.failed ∧ dstep.step_id ∈ s0.dependencies) →
      σ.steps.get? iS = some s0) := by
  have hhealthy : Healthy σ :=
    reaches_healthy truthy agents (initState steps) σ hreach
      (fun s hs => Or.inl (hpend s hs)) hag
  obtain ⟨snt, hsnt, hntc, hntf, _⟩ := hnt
  have hsp : snt.status = TaskStatus.pending := by
    rcases hhealthy snt hsnt with h1 | h1 | h1
    · exact h1
    · exact absurd h1 hntc
    · exact absurd h1 hntf
  have hap : anyPending σ = true := (anyPending_iff σ).mpr ⟨snt, hsnt, hsp⟩
  have hInvG0 : InvG (initState steps) :=
    ⟨List.nodup_nil, fun id hid => absurd hid (List.not_mem_nil id)⟩
  have hpc : pendingCount (initState steps) =
      List.countP (fun s => s.status == TaskStatus.pending) steps := rfl
  have hfuel : pendingCount (initState steps) < steps.length + 1 := by
    have h1 := List.countP_le_length
      (fun s : WorkflowStep V => s.status == TaskStatus.pending) (l := steps)
    omega
  have hstall : execLoop truthy agents (steps.length + 1) (initState steps)
      = (σ, some stallMsg) :=
    execLoop_stall truthy agents (initState steps) σ hreach hInvG0 hnd
      (steps.length + 1) hfuel hready hap
  have hexec : execute_steps truthy agents steps = (σ, some stallMsg) := by
    rw [execute_steps]
    exact hstall
  refine ⟨hexec, ?_, ?_, ?_⟩
  · simp only [execute_workflow, hwf, hexec]
  · simp only [execute_workflow, hwf, hexec]
    exact dictLookup_update_self _ _ _
  · rintro iS s0 hgS ⟨iD, dstep, hgD, hfDst, hdepm⟩
    exact temporal_block truthy agents (initState steps) σ hreach hInvG0 hnd
      iD dstep hgD hfDst iS s0 hgS (hpend s0 (List.get?_mem hgS)) hdepm

/-- Witness for C3: step A fails, step B depends on A; after one round the
ready set is empty while B is still pending, and the workflow fails with the
stall error. -/
theorem c3_stall_fails_witness :
    execute_steps (fun v => v != 0)
        (fun n => if n = "WA" then some (fun _ => Except.error "boom")
          else if n = "WB" then some (fun _ => Except.ok (9:Nat)) else none)
        (List.map mkStep
          [⟨"A", "WA", ⟨none, 0⟩, none⟩, ⟨"B", "WB", ⟨none, 0⟩, some ["A"]⟩]) =
      (roundNext (fun v => v != 0)
        (fun n => if n = "WA" then some (fun _ => Except.error "boom")
          else if n = "WB" then some (fun _ => Except.ok (9:Nat)) else none)
        (initState (List.map mkStep
          [⟨"A", "WA", ⟨none, 0⟩, none⟩, ⟨"B", "WB", ⟨none, 0⟩, some ["A"]⟩])),
        some stallMsg) ∧
    (execute_workflow (fun v => v != 0)
        (fun n => if n = "WA" then some (fun _ => Except.error "boom")
          else if n = "WB" then some (fun _ => Except.ok (9:Nat)) else none)
        (create_workflow (emptyEngine Nat) "wf"
          [⟨"A", "WA", ⟨none, 0⟩, none⟩, ⟨"B", "WB", ⟨none, 0⟩, some ["A"]⟩]).1
        "wf").response = Except.error stallMsg ∧
    dictLookup (execute_workflow (fun v => v != 0)
        (fun n => if n = "WA" then some (fun _ => Except.error "boom")
          else if n = "WB" then some (fun _ => Except.ok (9:Nat)) else none)
        (create_workflow (emptyEngine Nat) "wf"
          [⟨"A", "WA", ⟨none, 0⟩, none⟩, ⟨"B", "WB", ⟨none, 0⟩, some ["A"]⟩]).1
        "wf").engine.active_workflows "wf" = some ⟨"failed", some stallMsg⟩ := by
  have h := c3_stall_fails (fun v => v != 0)
    (fun n => if n = "WA" then some (fun _ => Except.error "boom")
      else if n = "WB" then some (fun _ => Except.ok (9:Nat)) else none)
    (create_workflow (emptyEngine Nat) "wf"
      [⟨"A", "WA", ⟨none, 0⟩, none⟩, ⟨"B", "WB", ⟨none, 0⟩, some ["A"]⟩]).1
    "wf"
    (List.map mkStep
      [⟨"A", "WA", ⟨none, 0⟩, none⟩, ⟨"B", "WB", ⟨none, 0⟩, some ["A"]⟩])
    (roundNext (fun v => v != 0)
      (fun n => if n = "WA" then some (fun _ => Except.error "boom")
        else if n = "WB" then some (fun _ => Except.ok (9:Nat)) else none)
      (initState (List.map mkStep
        [⟨"A", "WA", ⟨none, 0⟩, none⟩, ⟨"B", "WB", ⟨none, 0⟩, some ["A"]⟩])))
    rfl (by unfold AllPending; decide) (by unfold AgentsPresent; decide)
    (by unfold StepsNodup stepIds; decide)
    (LoopReaches.step _ _ (by decide) (by decide) (LoopReaches.refl _))
    (by decide) (by decide)
  exact ⟨h.1, h.2.1, h.2.2.1⟩

/-! ## Claim C4 -/

/-- C4 (amended): the effective worker input computed at launch (lines 145-151
and 184-187) substitutes the result of the last-declared dependency for an
unset `data` field only when that result is truthy (the code tests
`task_data.get("data") is None and previous_results`); a falsy dependency
result (e.g. an empty dict) leaves `data` unset; and a step whose `data` is
already set is passed its task payload unchanged. -/
theorem c4_last_dep_substitution {V : Type} (truthy : V → Bool)
    (results : List (String × V)) (s : WorkflowStep V) :
    (∀ d v, s.task.data = none → s.dependencies.getLast? = some d →
      dictLookup results d = some v → truthy v = true →
      launchInput truthy results s = ⟨some v, s.task.rest⟩) ∧
    (∀ d v, s.task.data = none → s.dependencies.getLast? = some d →
      dictLookup results d = some v → truthy v = false →
      launchInput truthy results s = s.task) ∧
    (∀ x, s.task.data = some x → launchInput truthy results s = s.task) := by
  refine ⟨?_, ?_, ?_⟩
  · intro d v hdata hlast hlk htr
    simp [launchInput, lastDepResult, hlast, hlk, hdata, truthyOpt, htr]
  · intro d v hdata hlast hlk htr
    simp [launchInput, lastDepResult, hlast, hlk, hdata, truthyOpt, htr]
  · intro x hdata
    simp [launchInput, hdata]

/-- Witness for the amended C4: truthy result substituted, falsy result not
substituted, preset payload passed unchanged. -/
theorem c4_last_dep_substitution_witness :
    launchInput (fun v => v != 0) [("A", (5:Nat))]
      ⟨"B", "WB", ⟨none, 0⟩, ["A"], TaskStatus.pending, none, none⟩
      = ⟨some 5, 0⟩ ∧
    launchInput (fun v => v != 0) [("A", (0:Nat))]
      ⟨"B", "WB", ⟨none, 0⟩, ["A"], TaskStatus.pending, none, none⟩
      = ⟨none, 0⟩ ∧
    launchInput (fun v => v != 0) [("A", (5:Nat))]
      ⟨"C", "WC", ⟨some 7, 0⟩, ["A"], TaskStatus.pending, none, none⟩
      = ⟨some 7, 0⟩ := by
  refine ⟨?_, ?_, ?_⟩
  · exact (c4_last_dep_substitution (fun v => v != 0) [("A", (5:Nat))]
      ⟨"B", "WB", ⟨none, 0⟩, ["A"], TaskStatus.pending, none, none⟩).1
      "A" 5 rfl rfl rfl rfl
  · exact (c4_last_dep_substitution (fun v => v != 0) [("A", (0:Nat))]
      ⟨"B", "WB", ⟨none, 0⟩, ["A"], TaskStatus.pending, none, none⟩).2.1
      "A" 0 rfl rfl rfl rfl
  · exact (c4_last_dep_substitution (fun v => v != 0) [("A", (5:Nat))]
      ⟨"C", "WC", ⟨some 7, 0⟩, ["A"], TaskStatus.pending, none, none⟩).2.2
      7 rfl

/-- C4 counterexample: step A completes with the falsy result 0; dependent
step B has an unset `data` field, yet its worker is invoked with `data` still
unset (the trace records the actual invocation payloads) — not with the result
of its last-declared dependency as the original claim states. -/
theorem c4_counterexample :
    (execute_workflow (fun v => v != 0)
      (fun n => if n = "WA" then some (fun _ => Except.ok 0)
        else if n = "WB" then some (fun _ => Except.ok 9) else none)
      (create_workflow (emptyEngine Nat) "wf"
        [⟨"A", "WA", ⟨none, 0⟩, none⟩, ⟨"B", "WB", ⟨none, 0⟩, some ["A"]⟩]).1
      "wf").trace = [("A", ⟨none, 0⟩), ("B", ⟨none, 0⟩)] ∧
    (execute_workflow (fun v => v != 0)
      (fun n => if n = "WA" then some (fun _ => Except.ok 0)
        else if n = "WB" then some (fun _ => Except.ok 9) else none)
      (create_workflow (emptyEngine Nat) "wf"
        [⟨"A", "WA", ⟨none, 0⟩, none⟩, ⟨"B", "WB", ⟨none, 0⟩, some ["A"]⟩]).1
      "wf").response = Except.ok ⟨"wf", "completed", [("A", 0), ("B", 9)]⟩ :=
  ⟨rfl, rfl⟩

/-! ## Claim C5 -/

/-- C5 at the failing input: steps A (unknown capability) and B (present,
succeeding capability) are launched in the same round.  A is first marked
Failed with the "Agent missing not found" error, but the post-gather loop
pairs the single gathered result with `ready_steps[0]` — step A — so A is
overwritten to Completed carrying the sibling result 7 under key "A", while
sibling B is left stuck In-Progress with no result.  The sibling steps are
therefore very much affected, contradicting the claim (and the source's own
intent that each step's outcome be independent). -/
theorem c5_misalignment_bug :
    dictLookup (execute_workflow (fun v => v != 0)
      (fun n => if n = "good" then some (fun _ => Except.ok 7) else none)
      (create_workflow (emptyEngine Nat) "wf"
        [⟨"A", "missing", ⟨none, 0⟩, none⟩, ⟨"B", "good", ⟨none, 0⟩, none⟩]).1
      "wf").engine.workflows "wf" =
      some [⟨"A", "missing", ⟨none, 0⟩, [], TaskStatus.completed, some 7,
              some "Agent missing not found"⟩,
            ⟨"B", "good", ⟨none, 0⟩, [], TaskStatus.in_progress, none, none⟩] ∧
    (execute_workflow (fun v => v != 0)
      (fun n => if n = "good" then some (fun _ => Except.ok 7) else none)
      (create_workflow (emptyEngine Nat) "wf"
        [⟨"A", "missing", ⟨none, 0⟩, none⟩, ⟨"B", "good", ⟨none, 0⟩, none⟩]).1
      "wf").response = Except.ok ⟨"wf", "completed", [("A", 7)]⟩ :=
  ⟨rfl, rfl⟩

/-! ## Claim C7 -/

theorem drainStep_facts {V E : Type}
    (perform : E → QueuedTask V → E × Except String V)
    (st : CoordState V E) (t : QueuedTask V) (hact : st.active_tasks = []) :
    (drainStep perform st t).task_queue = st.task_queue ∧
    (drainStep perform st t).active_tasks = [] ∧
    (drainStep perform st t).env =
      (perform st.env { t with status := "processing" }).1 ∧
    ∃ r, (drainStep perform st t).task_history = st.task_history ++ [r] ∧
      r.task_id = t.task_id ∧
      (r.status = "completed" ∨ (r.status = "failed" ∧ r.error.isSome)) := by
  cases hperf : perform st.env { t with status := "processing" } with
  | mk env2 out =>
    cases out with
    | ok v =>
      refine ⟨?_, ?_, ?_,
        ⟨{ t with status := "completed", result := some v }, ?_, rfl, Or.inl rfl⟩⟩
      all_goals
        simp [drainStep, drainBegin, drainFinish, hperf, hact, dictUpdate,
          dictDelete]
    | error e =>
      refine ⟨?_, ?_, ?_,
        ⟨{ t with status := "failed", error := some e }, ?_, rfl,
          Or.inr ⟨rfl, rfl⟩⟩⟩
      all_goals
        simp [drainStep, drainBegin, drainFinish, hperf, hact, dictUpdate,
          dictDelete]

theorem processQueueGo_spec {V E : Type}
    (perform : E → QueuedTask V → E × Except String V) :
    ∀ (q : List (QueuedTask V)) (st : CoordState V E), st.active_tasks = [] →
      (q = [] → processQueueGo perform q st = st) ∧
      (q ≠ [] → (processQueueGo perform q st).task_queue = []) ∧
      (processQueueGo perform q st).active_tasks = [] ∧
      ∃ records, (processQueueGo perform q st).task_history
          = st.task_history ++ records ∧
        records.length = q.length ∧
        (∀ k r t, records.get? k = some r → q.get? k = some t →
          r.task_id = t.task_id ∧
          (r.status = "completed" ∨ (r.status = "failed" ∧ r.error.isSome))) := by
  intro q
  induction q with
  | nil =>
    intro st hact
    refine ⟨fun _ => rfl, fun h => absurd rfl h, hact, [], by simp [processQueueGo], rfl, ?_⟩
    intro k r t hr _
    simp at hr
  | cons t rest ih =>
    intro st hact
    set st1 : CoordState V E := { st with task_queue := rest } with hst1
    have hact1 : st1.active_tasks = [] := hact
    obtain ⟨hq, ha, he, r0, hh, hid0, hst0⟩ := drainStep_facts perform st1 t hact1
    set st2 : CoordState V E := drainStep perform st1 t with hst2
    have hgo : processQueueGo perform (t :: rest) st = processQueueGo perform rest st2 := by
      rw [processQueueGo]
    obtain ⟨ih1, ih2, ih3, records, ihh, ihlen, ihpt⟩ := ih st2 ha
    refine ⟨?_, ?_, ?_, r0 :: records, ?_, ?_, ?_⟩
    · intro hcon
      exact absurd hcon (List.cons_ne_nil t rest)
    · intro _
      rw [hgo]
      by_cases hr : rest = []
      · rw [ih1 hr, hq]
        exact hr
      · exact ih2 hr
    · rw [hgo]
      exact ih3
    · rw [hgo, ihh, hh]
      simp
    · simp [ihlen]
    · intro k r tk hrk htk
      cases k with
      | zero =>
        rw [List.get?] at hrk htk
        injection hrk with hrk
        injection htk with htk
        rw [← hrk, ← htk]
        exact ⟨hid0, hst0⟩
      | succ j =>
        rw [List.get?] at hrk htk
        exact ihpt j r tk hrk htk

/-- C7: draining the backlog processes tasks strictly in FIFO submission
order.  The queue empties; the active set is restored to empty; each queued
task yields exactly one terminal record, appended to the history in queue
order, with status `"completed"` or `"failed"` (and a non-empty error in the
failed case, carrying the raised error text — see the `drainFinish` equations
below); a raising task does not stop the drain (every later queued task still
gets its record).  During a task, `drainBegin` puts exactly that task, in
status `"processing"`, into the otherwise-empty active set, and `drainFinish`
removes it again while appending the terminal record. -/
theorem c7_backlog_drain {V E : Type}
    (perform : E → QueuedTask V → E × Except String V)
    (st : CoordState V E) (hact : st.active_tasks = []) :
    (process_task_queue perform st).task_queue = [] ∧
    (process_task_queue perform st).active_tasks = [] ∧
    (∃ records, (process_task_queue perform st).task_history
        = st.task_history ++ records ∧
      records.length = st.task_queue.length ∧
      (∀ k r t, records.get? k = some r → st.task_queue.get? k = some t →
        r.task_id = t.task_id ∧
        (r.status = "completed" ∨ (r.status = "failed" ∧ r.error.isSome)))) ∧
    (∀ (st2 : CoordState V E) (t : QueuedTask V), st2.active_tasks = [] →
      (drainBegin st2 t).1.active_tasks
        = [(t.task_id, { t with status := "processing" })] ∧
      (drainBegin st2 t).2 = { t with status := "processing" }) ∧
    (∀ (st2 : CoordState V E) (t1 : QueuedTask V) (env2 : E) (e : String),
      drainFinish st2 t1 env2 (Except.error e) =
        { st2 with
            env := env2,
            active_tasks := dictDelete st2.active_tasks t1.task_id,
            task_history := st2.task_history ++
              [{ t1 with status := "failed", error := some e }] }) ∧
    (∀ (st2 : CoordState V E) (t1 : QueuedTask V) (env2 : E) (v : V),
      drainFinish st2 t1 env2 (Except.ok v) =
        { st2 with
            env := env2,
            active_tasks := dictDelete st2.active_tasks t1.task_id,
            task_history := st2.task_history ++
              [{ t1 with status := "completed", result := some v }] }) := by
  set st0 : CoordState V E := { st with task_queue := [] } with hst0
  have hact0 : st0.active_tasks = [] := hact
  obtain ⟨h1, h2, h3, records, hh, hlen, hpt⟩ :=
    processQueueGo_spec perform st.task_queue st0 hact0
  have hpq : process_task_queue perform st = processQueueGo perform st.task_queue st0 :=
    rfl
  refine ⟨?_, ?_, ?_, ?_, ?_, ?_⟩
  · rw [hpq]
    by_cases hq : st.task_queue = []
    · rw [h1 hq]
    · exact h2 hq
  · rw [hpq]
    exact h3
  · refine ⟨records, ?_, hlen, hpt⟩
    rw [hpq]
    exact hh
  · intro st2 t hact2
    constructor
    · simp [drainBegin, hact2, dictUpdate]
    · rfl
  · intro st2 t1 env2 e
    rfl
  · intro st2 t1 env2 v
    rfl

/-- Witness for C7 at a concrete two-task backlog whose second task raises. -/
theorem c7_backlog_drain_witness :
    (process_task_queue
      (fun (env : Nat) (t : QueuedTask Nat) =>
        (env + 1, if t.task_id = "t1" then Except.ok 5 else Except.error "bad"))
      ⟨0, [⟨"t1", 0, "queued", none, none⟩, ⟨"t2", 0, "queued", none, none⟩],
        [], []⟩).task_queue = [] ∧
    (process_task_queue
      (fun (env : Nat) (t : QueuedTask Nat) =>
        (env + 1, if t.task_id = "t1" then Except.ok 5 else Except.error "bad"))
      ⟨0, [⟨"t1", 0, "queued", none, none⟩, ⟨"t2", 0, "queued", none, none⟩],
        [], []⟩).active_tasks = [] ∧
    (∃ records : List (QueuedTask Nat), (process_task_queue
        (fun (env : Nat) (t : QueuedTask Nat) =>
          (env + 1, if t.task_id = "t1" then Except.ok 5 else Except.error "bad"))
        ⟨0, [⟨"t1", 0, "queued", none, none⟩, ⟨"t2", 0, "queued", none, none⟩],
          [], []⟩).task_history = [] ++ records ∧
      records.length = ([⟨"t1", (0:Nat), "queued", none, none⟩,
        ⟨"t2", 0, "queued", none, none⟩] : List (QueuedTask Nat)).length ∧
      (∀ k r (t : QueuedTask Nat), records.get? k = some r →
        ([⟨"t1", (0:Nat), "queued", none, none⟩,
          ⟨"t2", 0, "queued", none, none⟩] : List (QueuedTask Nat)).get? k = some t →
        r.task_id = t.task_id ∧
        (r.status = "completed" ∨ (r.status = "failed" ∧ r.error.isSome)))) :=
  by
  have h := c7_backlog_drain
    (fun (env : Nat) (t : QueuedTask Nat) =>
      (env + 1, if t.task_id = "t1" then Except.ok 5 else Except.error "bad"))
    ⟨0, [⟨"t1", 0, "queued", none, none⟩, ⟨"t2", 0, "queued", none, none⟩],
      [], []⟩ rfl
  exact ⟨h.1, h.2.1, h.2.2.1⟩

/-! ## Claim C8 -/

/-- C8: for every store state, `get_verification_summary` returns normally
(never raises `ZeroDivisionError`), its `verification_rate` equals the number
of fact checks whose result status is `"verified"` divided by the total number
of fact checks, and it equals `0` when no fact checks exist — the division is
guarded by the `if total > 0` conditional for every state. -/
theorem c8_verification_rate_guarded {V : Type} (m : VerificationMemory V) :
    ∃ s, get_verification_summary m = Except.ok s ∧
      s.verification_rate = (if m.fact_checks.length = 0 then 0
        else (verifiedCount m : ℚ) / (m.fact_checks.length : ℚ)) ∧
      s.total_fact_checks = m.fact_checks.length ∧
      s.verified_claims = verifiedCount m := by
  by_cases h1 : m.fact_checks.length = 0
  · by_cases h2 : m.validations.length = 0
    · refine ⟨⟨m.fact_checks.length, verifiedCount m, m.validations.length,
        validCount m, 0, 0⟩, ?_, by simp [h1], rfl, rfl⟩
      simp [get_verification_summary, h1, h2]
    · refine ⟨⟨m.fact_checks.length, verifiedCount m, m.validations.length,
        validCount m, 0, (validCount m : ℚ) / (m.validations.length : ℚ)⟩,
        ?_, by simp [h1], rfl, rfl⟩
      have h2p : 0 < m.validations.length := Nat.pos_of_ne_zero h2
      have h2q : (m.validations.length : ℚ) ≠ 0 := by
        simpa using h2
      simp [get_verification_summary, h1, h2p, pythonDiv, h2q]
  · have h1p : 0 < m.fact_checks.length := Nat.pos_of_ne_zero h1
    have h1q : (m.fact_checks.length : ℚ) ≠ 0 := by
      simpa using h1
    by_cases h2 : m.validations.length = 0
    · refine ⟨⟨m.fact_checks.length, verifiedCount m, m.validations.length,
        validCount m, (verifiedCount m : ℚ) / (m.fact_checks.length : ℚ), 0⟩,
        ?_, by simp [h1], rfl, rfl⟩
      simp [get_verification_summary, h1p, h2, pythonDiv, h1q]
    · refine ⟨⟨m.fact_checks.length, verifiedCount m, m.validations.length,
        validCount m, (verifiedCount m : ℚ) / (m.fact_checks.length : ℚ),
        (validCount m : ℚ) / (m.validations.length : ℚ)⟩,
        ?_, by simp [h1], rfl, rfl⟩
      have h2p : 0 < m.validations.length := Nat.pos_of_ne_zero h2
      have h2q : (m.validations.length : ℚ) ≠ 0 := by
        simpa using h2
      simp [get_verification_summary, h1p, h2p, pythonDiv, h1q, h2q]

/-! ## Claim C9 -/

theorem dictUpdateAll_fresh {α : Type} :
    ∀ (m acc : List (String × α)), (m.map Prod.fst).Nodup →
      (∀ k ∈ m.map Prod.fst, k ∉ acc.map Prod.fst) →
      dictUpdateAll acc m = acc ++ m := by
  intro m
  induction m with
  | nil => intro acc _ _; simp [dictUpdateAll]
  | cons p rest ih =>
    intro acc hnd hfresh
    have hp : p.1 ∉ acc.map Prod.fst :=
      hfresh p.1 (by simp)
    have hstep : dictUpdate acc p.1 p.2 = acc ++ [p] := by
      rw [dictUpdate_fresh acc p.1 p.2 hp]
    have hndr : (rest.map Prod.fst).Nodup := (List.nodup_cons.mp (by simpa using hnd)).2
    have hhead : p.1 ∉ rest.map Prod.fst := (List.nodup_cons.mp (by simpa using hnd)).1
    have hfresh2 : ∀ k ∈ rest.map Prod.fst, k ∉ (acc ++ [p]).map Prod.fst := by
      intro k hk
      rw [List.map_append, List.mem_append]
      rintro (hka | hkp)
      · exact hfresh k (by simp [hk]) hka
      · simp only [List.map_cons, List.map_nil, List.mem_singleton] at hkp
        rw [hkp] at hk
        exact hhead hk
    calc dictUpdateAll acc (p :: rest)
        = dictUpdateAll (dictUpdate acc p.1 p.2) rest := by rw [dictUpdateAll]
      _ = dictUpdateAll (acc ++ [p]) rest := by rw [hstep]
      _ = (acc ++ [p]) ++ rest := ih (acc ++ [p]) hndr hfresh2
      _ = acc ++ (p :: rest) := by simp

/-- C9: for every knowledge store whose graph and relationship dicts have
duplicate-free keys (true of every real Python dict), exporting as `"json"`
and importing the snapshot into a freshly constructed empty store restores the
knowledge-graph node set and the relationship set exactly (tier data is not
round-tripped by design), and importing with an unsupported format name fails
with an error. -/
theorem c9_export_import_round_trip {V : Type} (st : SharedKnowledge V)
    (h1 : (st.knowledge_graph.map Prod.fst).Nodup)
    (h2 : (st.relationships.map Prod.fst).Nodup) :
    (∃ snap, export_knowledge st "json" = Except.ok snap ∧
      ∃ st2, import_knowledge (emptyShared V) snap "json" = Except.ok st2 ∧
        st2.knowledge_graph = st.knowledge_graph ∧
        st2.relationships = st.relationships) ∧
    (∀ fmt, fmt ≠ "json" → ∀ snap : Snapshot V,
      ∃ e, import_knowledge st snap fmt = Except.error e) := by
  constructor
  · refine ⟨⟨st.knowledge_graph, st.relationships⟩, ?_, ?_⟩
    · rw [export_knowledge]
      simp
    · refine ⟨{ emptyShared V with
          knowledge_graph := dictUpdateAll [] st.knowledge_graph,
          relationships := dictUpdateAll [] st.relationships }, ?_, ?_, ?_⟩
      · rw [import_knowledge]
        simp
        exact ⟨rfl, rfl⟩
      · rw [dictUpdateAll_fresh st.knowledge_graph [] h1 (by simp)]
        simp
      · rw [dictUpdateAll_fresh st.relationships [] h2 (by simp)]
        simp
  · intro fmt hfmt snap
    refine ⟨"Unsupported import format: " ++ fmt, ?_⟩
    rw [import_knowledge]
    simp [hfmt]

/-- Witness for C9 at a concrete store with one node and one relationship. -/
theorem c9_export_import_round_trip_witness :
    (∃ snap, export_knowledge
        (⟨[("n1", ⟨42, "src", 0⟩)], [("n1", [⟨"n2", "related"⟩])]⟩ :
          SharedKnowledge Nat) "json" = Except.ok snap ∧
      ∃ st2, import_knowledge (emptyShared Nat) snap "json" = Except.ok st2 ∧
        st2.knowledge_graph = [("n1", ⟨42, "src", 0⟩)] ∧
        st2.relationships = [("n1", [⟨"n2", "related"⟩])]) ∧
    (∀ fmt, fmt ≠ "json" → ∀ snap : Snapshot Nat,
      ∃ e, import_knowledge
        (⟨[("n1", ⟨42, "src", 0⟩)], [("n1", [⟨"n2", "related"⟩])]⟩ :
          SharedKnowledge Nat) snap fmt = Except.error e) :=
  c9_export_import_round_trip
    (⟨[("n1", ⟨42, "src", 0⟩)], [("n1", [⟨"n2", "related"⟩])]⟩ :
      SharedKnowledge Nat)
    (by decide) (by decide)

end DeepResearch
